import Mathlib

/-!
Verification of the stig torrent-filter engine (SingleTorrentFilter /
TorrentFilter): a shallow embedding of the filter mini-language — tokenizer,
atomic-filter grammar, OR-of-AND expression algebra, canonical serialization,
needed-keys analysis and record matching — together with proofs of the
round-trip, absorption, equality and error-handling properties.

The engine itself (stig/client/filters) is not part of the provided sources;
every definition below is modelled from the specification (spec.md), with the
provided test suite (tests/client_test/filters_test/torrent_filter_test.py)
fixing the behaviour wherever it speaks.
-/

set_option maxRecDepth 10000

deriving instance DecidableEq for Except

namespace Stig

/-- Character lists; the embedding works on unpacked strings. -/
abbrev Cs := List Char

/-- Whitespace as stripped by token trimming. -/
def isWs (c : Char) : Bool := c = ' ' || c = '\t'

/-- The two boolean-operator characters of the expression grammar. -/
def isSep (c : Char) : Bool := c = '&' || c = '|'

/-- Characters that can start a comparison operator. -/
def isOpChar (c : Char) : Bool := c = '=' || c = '~' || c = '<' || c = '>'

/-- Drop leading whitespace. -/
def dropWs : Cs → Cs
  | [] => []
  | c :: r => if isWs c then dropWs r else c :: r

/-- Trim whitespace from both ends (Python str.strip on the modelled alphabet). -/
def trimCs (cs : Cs) : Cs := ((dropWs cs.reverse).reverse |> dropWs)

/-- Last character of a nonempty list given as head and tail. -/
def lastChar (c : Char) : Cs → Char
  | [] => c
  | d :: r => lastChar d r

/-- Comparison operators after the optional negating bang has been split off.

Modelled from the spec: operator tokens are matched longest-first from
the set =, !=, ~, !~, <, <=, >, >=; the test '%downloaded!>' shows that a
bang may precede any base operator, so the base set is =, ~, <, <=, >, >=
with an independent negation flag. -/
inductive BaseOp
  | eq
  | contains
  | lt
  | le
  | gt
  | ge
  deriving DecidableEq, Repr

/-- Text of a base operator. -/
def baseOpCs : BaseOp → Cs
  | .eq => ['=']
  | .contains => ['~']
  | .lt => ['<']
  | .le => ['<', '=']
  | .gt => ['>']
  | .ge => ['>', '=']

/-- Operator text including the negation bang, as cited by InvalidOperator. -/
def opCs (neg : Bool) (b : BaseOp) : Cs :=
  (if neg then ['!'] else []) ++ baseOpCs b

/-- Value kinds of filter specs.

Modelled from the spec: value_kind ranges over boolean, number, size,
percentage, timespan, string, status-set, path; number and size share the
numeric comparison semantics here. -/
inductive ValueKind
  | boolK
  | numberK
  | percentK
  | spanK
  | stringK
  | statusK
  | pathK
  deriving DecidableEq, Repr

/-- The closed registry of filter specs.

Modelled from the spec: FilterRegistry is a static table of FilterSpec
entries (name, aliases, attribute dependency, value kind, supported
operators, default predicate), never mutated after registration. The
entries are the ones exercised by the provided test suite. -/
inductive SpecId
  | allF
  | nameF
  | idleF
  | privateF
  | publicF
  | stoppedF
  | activeF
  | completeF
  | incompleteF
  | downloadingF
  | uploadingF
  | rateDownF
  | rateUpF
  | pctDownF
  | etaF
  | pathF
  deriving DecidableEq, Repr

/-- Every registered spec, in registry order. -/
def allSpecs : List SpecId :=
  [.allF, .nameF, .idleF, .privateF, .publicF, .stoppedF, .activeF, .completeF,
   .incompleteF, .downloadingF, .uploadingF, .rateDownF, .rateUpF, .pctDownF,
   .etaF, .pathF]

/-- Unique name of a spec. -/
def specName : SpecId → String
  | .allF => "all"
  | .nameF => "name"
  | .idleF => "idle"
  | .privateF => "private"
  | .publicF => "public"
  | .stoppedF => "stopped"
  | .activeF => "active"
  | .completeF => "complete"
  | .incompleteF => "incomplete"
  | .downloadingF => "downloading"
  | .uploadingF => "uploading"
  | .rateDownF => "rate-down"
  | .rateUpF => "rate-up"
  | .pctDownF => "%downloaded"
  | .etaF => "eta"
  | .pathF => "path"

/-- Aliases of a spec (the tests pin rdn for rate-down and * for all). -/
def specAliases : SpecId → List String
  | .allF => ["*"]
  | .rateDownF => ["rdn"]
  | .rateUpF => ["rup"]
  | _ => []

/-- Value kind of a spec. -/
def specKind : SpecId → ValueKind
  | .allF => .boolK
  | .nameF => .stringK
  | .idleF => .boolK
  | .privateF => .boolK
  | .publicF => .boolK
  | .stoppedF => .boolK
  | .activeF => .boolK
  | .completeF => .boolK
  | .incompleteF => .boolK
  | .downloadingF => .boolK
  | .uploadingF => .boolK
  | .rateDownF => .numberK
  | .rateUpF => .numberK
  | .pctDownF => .percentK
  | .etaF => .spanK
  | .pathF => .pathK

/-- The record attribute a spec compares against. -/
def specKey : SpecId → String
  | .allF => ""
  | .nameF => "name"
  | .idleF => "status"
  | .privateF => "private"
  | .publicF => "private"
  | .stoppedF => "status"
  | .activeF => "peers-connected"
  | .completeF => "%downloaded"
  | .incompleteF => "%downloaded"
  | .downloadingF => "rate-down"
  | .uploadingF => "rate-up"
  | .rateDownF => "rate-down"
  | .rateUpF => "rate-up"
  | .pctDownF => "%downloaded"
  | .etaF => "timespan-eta"
  | .pathF => "path"

/-- Attribute identifiers a spec needs on every record.

Modelled from the spec: needed_keys is the set of attribute identifiers read
when evaluating the spec; the tests pin public -> private,
complete -> %downloaded and active -> peers-connected, status. -/
def specNeeded : SpecId → List String
  | .allF => []
  | .activeF => ["peers-connected", "status"]
  | s => [specKey s]

/-- Registry lookup by name or alias; none when no spec matches.

Modelled from the spec: lookup(name_or_alias) -> FilterSpec, failing with
UnknownFilterName when no spec or alias matches. -/
def lookupSpec (nm : Cs) : Option SpecId :=
  allSpecs.find? fun s =>
    nm = (specName s).data || (specAliases s).any fun a => nm = a.data

/-- One parsed atomic predicate.

Modelled from the spec: an AtomicFilter references a FilterSpec, carries an
inversion flag, an operator and an optional value; operator NONE carries no
value and uses the default predicate. When an operator is present, a leading
inversion bang fuses with the operator negation (the tests render both
'!name=foo' input forms as '!=foo'), so the operator case stores one
negation flag and the raw value text. -/
inductive AtomicFilter
  | nofilter (spec : SpecId) (invert : Bool)
  | opfilter (spec : SpecId) (neg : Bool) (base : BaseOp) (value : Cs)
  deriving DecidableEq, Repr

/-- The match-all sentinel: the parse of the empty string, of all and of *. -/
def allAtom : AtomicFilter := .nofilter .allF false

/-- Spec referenced by an atomic filter. -/
def AtomicFilter.spec : AtomicFilter → SpecId
  | .nofilter s _ => s
  | .opfilter s _ _ _ => s

/-- Typed construction and evaluation failures.

Modelled from the spec: ParseError (LeadingOperator, TrailingOperator,
ConsecutiveOperators, MalformedExpression, MissingValue) raised during
construction, each carrying the offending substring, and SemanticError
(UnknownFilterName, InvalidOperator, InvalidValue) raised at name
resolution or at evaluation time. -/
inductive FilterError
  | leadingOperator (text : Cs)
  | trailingOperator (text : Cs)
  | consecutiveOperators (text : Cs)
  | malformedExpression (text : Cs)
  | missingValue (text : Cs)
  | unknownFilterName (name : Cs)
  | invalidOperator (specNm : String) (op : Cs)
  | invalidValue (specNm : String) (value : Cs)
  deriving DecidableEq, Repr

/-- Earliest comparison operator in a token: the text before it, its negation
flag and base, and the text after it.

Modelled from the spec: the operator token is matched longest-first; a bang
immediately followed by an operator character negates it, any other bang is
ordinary name text. -/
def findOp : Cs → Option (Cs × Bool × BaseOp × Cs)
  | [] => none
  | c :: r =>
    if isOpChar c then some ([], false, mkOp c r)
    else if c = '!' then
      match r with
      | [] => none
      | c2 :: r2 =>
        if isOpChar c2 then some ([], true, mkOp c2 r2)
        else (findOp (c2 :: r2)).map fun p => (c :: p.1, p.2)
    else (findOp r).map fun p => (c :: p.1, p.2)
where
  /-- Longest-first base operator starting at a given operator character. -/
  mkOp (c : Char) (r : Cs) : BaseOp × Cs :=
    if c = '=' then (.eq, r)
    else if c = '~' then (.contains, r)
    else if c = '<' then
      if r.head? = some '=' then (.le, r.tail) else (.lt, r)
    else
      if r.head? = some '=' then (.ge, r.tail) else (.gt, r)

/-- Split a leading inversion bang off a trimmed token. -/
def extractInvert : Cs → Bool × Cs
  | [] => (false, [])
  | c :: r => if c = '!' then (true, r) else (false, c :: r)

/-- Strip one layer of single quotes when the text is quoted at both ends. -/
def unquote (v : Cs) : Cs :=
  match v with
  | c :: c2 :: rest =>
    if c = '\'' && lastChar c2 rest = '\'' then (c2 :: rest).dropLast else v
  | _ => v

/-- Parse one atomic token (the SingleTorrentFilter grammar).

Modelled from the spec: grammar per token is optional bang, optional name,
optional operator and value; the surrounding token is trimmed and the value
is the verbatim remainder after the operator (unquoted when single-quoted);
the empty string, all and * give the match-all sentinel; a missing value
after an operator fails with MissingValue, a bang separated from the name
fails with MalformedExpression, an unknown name before an operator fails
with UnknownFilterName, and a token without an operator that matches no
spec name or alias becomes the implicit substring filter on the name spec.
Percentage values are normalized to carry their canonical % suffix. -/
def parseAtomic (raw : Cs) : Except FilterError AtomicFilter :=
  let t := trimCs raw
  if t = [] || t = "all".data || t = "*".data then .ok allAtom
  else
    match findOp t with
    | none =>
      let iv := extractInvert t
      if iv.2 = [] then .ok (.nofilter .nameF iv.1)
      else
        match lookupSpec iv.2 with
        | some spec => .ok (.nofilter spec iv.1)
        | none => .ok (.opfilter .nameF iv.1 .contains iv.2)
    | some (pre, neg, base, post) =>
      if post = [] then .error (.missingValue t)
      else
        let v := unquote post
        let iv := extractInvert (trimCs pre)
        if iv.2 ≠ [] && lastChar ' ' iv.2 = '!' then .error (.malformedExpression t)
        else
          match (if iv.2 = [] then some .nameF else lookupSpec iv.2) with
          | none => .error (.unknownFilterName iv.2)
          | some spec =>
            let v2 := if specKind spec = .percentK && lastChar ' ' v ≠ '%'
                      then v ++ ['%'] else v
            .ok (.opfilter spec (iv.1 != neg) base v2)

/-- Whether a rendered value must be single-quoted so that the canonical
token re-parses to an equal atomic filter.

Modelled from the spec: the canonical form is the shortest unambiguous
token that re-parses to an equal AtomicFilter; quoting protects empty
values, surrounding whitespace (the tests render 'name= foo' as a quoted
value), already-quoted shapes, a trailing backslash (which would escape the
following expression operator) and a leading = (which would extend < or >). -/
def needsQuote (v : Cs) : Bool :=
  match v with
  | [] => true
  | c :: rest =>
    isWs c || c = '=' ||
      (let l := lastChar c rest
       isWs l || l = '\\' || (c = '\'' && l = '\'' && rest ≠ []))

/-- Quote a value when the canonical token needs it. -/
def quoteIfNeeded (v : Cs) : Cs :=
  if needsQuote v then '\'' :: (v ++ ['\'']) else v

/-- Canonical text of one atomic filter.

Modelled from the spec: a boolean spec with no operator renders as just its
(possibly bang-prefixed) name; with an operator the name is rendered unless
it is the default name spec, then the operator and the value, quoted per
the rules above (the tests pin str forms such as '!idle', '~foo', '=foo',
'!=foo' and '%downloaded>17.2%'). -/
def renderAtomic : AtomicFilter → Cs
  | .nofilter spec inv => (if inv then ['!'] else []) ++ (specName spec).data
  | .opfilter spec neg base v =>
    (if spec = .nameF then [] else (specName spec).data) ++
      opCs neg base ++ quoteIfNeeded v

/-- One piece of the operator-split input: a token or an operator character. -/
inductive Part
  | tok (cs : Cs)
  | op (c : Char)
  deriving DecidableEq, Repr

/-- Split the input at unescaped boolean operators, keeping the operators.

Modelled from the spec: the input splits on unescaped vertical bars into
top-level groups and on unescaped ampersands into atomic tokens; a
backslash immediately preceding an operator character escapes it as a
literal character inside a value. The accumulator carries the current token
in reverse. -/
def partsGo (acc : Cs) : Cs → List Part
  | [] => [.tok acc.reverse]
  | c :: r =>
    if isSep c then .tok acc.reverse :: .op c :: partsGo [] r
    else if c = '\\' then
      match r with
      | [] => [.tok ('\\' :: acc).reverse]
      | c2 :: r2 =>
        if isSep c2 then partsGo (c2 :: '\\' :: acc) r2
        else partsGo ('\\' :: acc) (c2 :: r2)
    else partsGo (c :: acc) r

/-- All parts of an input, empty tokens removed. -/
def partsOf (cs : Cs) : List Part := (partsGo [] cs).filter (· ≠ .tok [])

/-- Whether a part is an operator. -/
def Part.isOp : Part → Bool
  | .op _ => true
  | .tok _ => false

/-- Text of the chunk a consecutive-operator message ends with. -/
def firstChunk : List Part → Cs
  | [] => []
  | .tok t :: _ => t
  | .op c :: _ => [c]

/-- First pair of adjacent operators, rendered with its neighbouring text as
the offending substring the ConsecutiveOperators error cites. -/
def findConsec : List Part → Option Cs
  | .tok t :: .op a :: .op b :: rest => some (t ++ a :: b :: firstChunk rest)
  | _ :: rest => findConsec rest
  | [] => none

/-- Group the split tokens: vertical bars start a new AND-group, ampersands
separate tokens within a group. -/
def groupsOf : List Part → List (List Cs)
  | [] => [[]]
  | .tok t :: r =>
    match groupsOf r with
    | [] => [[t]]
    | g :: gs => (t :: g) :: gs
  | .op c :: r => if c = '|' then [] :: groupsOf r else groupsOf r

/-- Replace escaped operator characters by their literal selves. -/
def unescCs : Cs → Cs
  | [] => []
  | [c] => [c]
  | c :: c2 :: r =>
    if c = '\\' && isSep c2 then c2 :: unescCs r
    else c :: unescCs (c2 :: r)

/-- Insert escaping backslashes before every operator character. -/
def escCs : Cs → Cs
  | [] => []
  | c :: r => if isSep c then '\\' :: c :: escCs r else c :: escCs r

/-- A boolean filter expression: AND-groups of atomic filters, combined by
OR. The empty group list is the identity expression (all). -/
abbrev TorrentFilter := List (List AtomicFilter)

/-- Parse the expression structure of an input, before the identity
collapse: split at unescaped operators, reject leading, trailing and
consecutive operators (in that order, citing the offending substring), then
parse each unescaped token as an atomic filter.

Modelled from the spec: construction is atomic; the empty string parses to
the identity expression. -/
def parseChains (cs : Cs) : Except FilterError TorrentFilter :=
  if cs = [] then .ok []
  else
    let ps := partsOf cs
    if (ps.head?.map Part.isOp).getD false then .error (.leadingOperator cs)
    else if (ps.getLast?.map Part.isOp).getD false then .error (.trailingOperator cs)
    else
      match findConsec ps with
      | some sub => .error (.consecutiveOperators sub)
      | none => (groupsOf ps).mapM fun g => g.mapM fun t => parseAtomic (unescCs t)

/-- Collapse to the identity expression when any AND-group contains the
match-all sentinel: such a group matches every record, so the whole
OR-expression does (the tests pin str(TorrentFilter('name~f|all&public'))
as 'all'). -/
def collapse (chains : TorrentFilter) : TorrentFilter :=
  if chains.any (fun g => g.any (· = allAtom)) then [] else chains

/-- Parse a full filter expression. -/
def parseTF (s : String) : Except FilterError TorrentFilter :=
  (parseChains s.data).map collapse

/-- Join character-list tokens with a separator character. -/
def joinSep (s : Char) : List Cs → Cs
  | [] => []
  | [t] => t
  | t :: ts => t ++ s :: joinSep s ts

/-- Canonical text of one AND-group: escaped atomic tokens joined by
ampersands. -/
def renderGroup (g : List AtomicFilter) : Cs :=
  joinSep '&' (g.map fun a => escCs (renderAtomic a))

/-- Canonical text of an expression: groups joined by vertical bars; the
identity expression renders as all. -/
def renderChains : TorrentFilter → Cs
  | [] => "all".data
  | chains => joinSep '|' (chains.map renderGroup)

/-- Canonical string of a filter expression. -/
def tfString (e : TorrentFilter) : String := String.mk (renderChains e)

/-- Torrent status flags, as carried by the status attribute. -/
inductive TStatus
  | stopped
  | idle
  | download
  | upload
  | connected
  | verify
  deriving DecidableEq, Repr

/-- Exact fractions: an integer numerator over a positive natural
denominator, stored without normalisation.  Every fraction the model builds
has a power-of-ten or SI-multiple denominator, and comparisons
cross-multiply, so the representation never needs reducing. -/
structure Frac where
  num : Int
  den : Nat
  deriving DecidableEq, Repr

instance (n : Nat) : OfNat Frac n := ⟨⟨n, 1⟩⟩

instance : LT Frac := ⟨fun a b => a.num * (b.den : Int) < b.num * (a.den : Int)⟩

instance : LE Frac := ⟨fun a b => a.num * (b.den : Int) ≤ b.num * (a.den : Int)⟩

instance (a b : Frac) : Decidable (a < b) := Int.decLt _ _

instance (a b : Frac) : Decidable (a ≤ b) := Int.decLe _ _

instance : Mul Frac := ⟨fun a b => ⟨a.num * b.num, a.den * b.den⟩⟩

/-- Value equality of fractions, by cross-multiplication. -/
def Frac.eqF (a b : Frac) : Bool :=
  a.num * (b.den : Int) = b.num * (a.den : Int)

/-- Attribute values a record can expose: numbers (exact fractions cover the
integral and fractional attributes of the tests), strings, booleans, status
flag sets and timespans with their is-known flag. -/
inductive AttrVal
  | num (q : Frac)
  | str (s : String)
  | boolV (b : Bool)
  | status (l : List TStatus)
  | span (q : Frac) (known : Bool)
  deriving DecidableEq, Repr

/-- A record: attribute lookup by string identifier is all the engine needs. -/
abbrev Record := List (String × AttrVal)

/-- Attribute lookup. -/
def getAttr (r : Record) (k : String) : Option AttrVal :=
  (r.find? fun p => p.1 = k).map fun p => p.2

/-- Truthiness of an attribute, as used by default predicates. -/
def truthy : Option AttrVal → Bool
  | some (.num q) => q.num ≠ 0
  | some (.str s) => s ≠ ""
  | some (.boolV b) => b
  | some (.status l) => l ≠ []
  | some (.span q _) => q.num ≠ 0
  | none => false

/-- Whether a status flag is set on the record. -/
def hasStatus (r : Record) (st : TStatus) : Bool :=
  match getAttr r "status" with
  | some (.status l) => l.contains st
  | _ => false

/-- Numeric value of an attribute, zero when absent or non-numeric. -/
def numAttr (r : Record) (k : String) : Frac :=
  match getAttr r k with
  | some (.num q) => q
  | _ => 0

/-- Default predicate of each spec, used when no operator is supplied.

Modelled from the spec: boolean and status specs match via their default
predicate; the tests pin all (everything), name (nonempty), private/public,
stopped and idle (status flags), active (connected peers or verifying),
complete/incomplete (fully downloaded or not), downloading/uploading and
the bare-number truthiness of rate-down. -/
def specPred (s : SpecId) (r : Record) : Bool :=
  match s with
  | .allF => true
  | .nameF => truthy (getAttr r "name")
  | .idleF => hasStatus r .idle
  | .privateF => truthy (getAttr r "private")
  | .publicF => !truthy (getAttr r "private")
  | .stoppedF => hasStatus r .stopped
  | .activeF => numAttr r "peers-connected" > 0 || hasStatus r .verify
  | .completeF => numAttr r "%downloaded" ≥ 100
  | .incompleteF => numAttr r "%downloaded" < 100
  | .downloadingF => numAttr r "rate-down" > 0
  | .uploadingF => numAttr r "rate-up" > 0
  | .rateDownF => truthy (getAttr r "rate-down")
  | .rateUpF => truthy (getAttr r "rate-up")
  | .pctDownF => truthy (getAttr r "%downloaded")
  | .etaF => truthy (getAttr r "timespan-eta")
  | .pathF => truthy (getAttr r "path")

/-- Base operators legal for each value kind.

Modelled from the spec: boolean and status-set specs take no comparison
operator beyond status equality; numeric, size, percentage and timespan
specs take the six comparisons; string and path specs additionally take the
substring operator. Negated forms share their base operator. -/
def allowedOps : ValueKind → List BaseOp
  | .boolK => []
  | .numberK => [.eq, .lt, .le, .gt, .ge]
  | .percentK => [.eq, .lt, .le, .gt, .ge]
  | .spanK => [.eq, .lt, .le, .gt, .ge]
  | .stringK => [.eq, .contains, .lt, .le, .gt, .ge]
  | .pathK => [.eq, .contains, .lt, .le, .gt, .ge]
  | .statusK => [.eq]

/-- Natural number denoted by an all-digit string, if any. -/
def digitsNat : Cs → Option Nat
  | [] => none
  | cs => go cs 0
where
  go : Cs → Nat → Option Nat
    | [], acc => some acc
    | c :: r, acc => if c.isDigit then go r (acc * 10 + (c.toNat - 48)) else none

/-- Decimal literal: digits with an optional fractional part. -/
def parseDec (cs : Cs) : Option Frac :=
  match cs.span Char.isDigit with
  | (ip, []) => (digitsNat ip).map fun n => (⟨n, 1⟩ : Frac)
  | (ip, '.' :: fp) =>
    match digitsNat ip, digitsNat fp with
    | some n, some f =>
      some (⟨(n : Int) * (10 : Int) ^ fp.length + (f : Int), 10 ^ fp.length⟩ : Frac)
    | _, _ => none
  | _ => none

/-- SI multiplier of a suffix character, case-insensitive. -/
def siMult (c : Char) : Option Frac :=
  if c = 'k' || c = 'K' then some 1000
  else if c = 'm' || c = 'M' then some 1000000
  else if c = 'g' || c = 'G' then some 1000000000
  else if c = 't' || c = 'T' then some 1000000000000
  else none

/-- Numeric parse of a size or rate value: a decimal with an optional SI
suffix (k, M, G, T), case-insensitive.

Modelled from the spec: size and percentage values strip an SI suffix or a
trailing percent sign before comparison. -/
def parseNumSI (cs : Cs) : Option Frac :=
  match cs.getLast? with
  | none => none
  | some c =>
    match siMult c with
    | some m => (parseDec cs.dropLast).map fun q => q * m
    | none => parseDec cs

/-- Percentage parse: strip the trailing percent sign, else an SI suffix. -/
def parsePct (cs : Cs) : Option Frac :=
  if cs.getLast? = some '%' then parseDec cs.dropLast else parseNumSI cs

/-- Timespan parse: a decimal count of seconds, minutes, hours or days. -/
def parseSpan (cs : Cs) : Option Frac :=
  match cs.getLast? with
  | some 's' => parseDec cs.dropLast
  | some 'm' => (parseDec cs.dropLast).map fun q => q * 60
  | some 'h' => (parseDec cs.dropLast).map fun q => q * 3600
  | some 'd' => (parseDec cs.dropLast).map fun q => q * 86400
  | _ => parseDec cs

/-- Compare two rationals under a base operator. -/
def cmpQ (b : BaseOp) (x v : Frac) : Bool :=
  match b with
  | .eq => x.eqF v
  | .contains => false
  | .lt => x < v
  | .le => x ≤ v
  | .gt => x > v
  | .ge => x ≥ v

/-- Whether the first list starts the second. -/
def startsWithCs : Cs → Cs → Bool
  | [], _ => true
  | _ :: _, [] => false
  | c :: cr, d :: dr => c = d && startsWithCs cr dr

/-- Substring test: the first list occurs contiguously inside the second. -/
def subOf (v : Cs) : Cs → Bool
  | [] => startsWithCs v []
  | d :: dr => startsWithCs v (d :: dr) || subOf v dr

/-- Compare a record string against a value under a base operator.

The ordering comparisons compare the string length against the value when
the value is a bare integer, else against the value's length (the provided
tests pin name>2 matching only xxx and name>yy matching xxx on x/xx/xxx,
which is length-against-length, and the tests are the code authority
here). -/
def cmpStr (b : BaseOp) (x : Cs) (v : Cs) : Bool :=
  match b with
  | .eq => x = v
  | .contains => subOf v x
  | _ =>
    let n : Nat := (digitsNat v).getD v.length
    cmpQ b ⟨(x.length : Int), 1⟩ ⟨(n : Int), 1⟩

/-- Status flag denoted by a value in a status comparison. -/
def parseStatus : Cs → Option TStatus
  | cs =>
    if cs = "stopped".data then some .stopped
    else if cs = "idle".data then some .idle
    else if cs = "downloading".data then some .download
    else if cs = "uploading".data then some .upload
    else if cs = "connected".data then some .connected
    else if cs = "verifying".data then some .verify
    else none

/-- Evaluate one atomic filter against a record.

Modelled from the spec: an operator outside the allowed set for the spec's
kind fails with InvalidOperator carrying the spec name and operator; a value
that fails kind-specific parsing fails with InvalidValue carrying the spec
name and raw value; an unknown timespan never satisfies a comparison; both
failures surface at evaluation time. -/
def matchAtomic (a : AtomicFilter) (r : Record) : Except FilterError Bool :=
  match a with
  | .nofilter spec inv => .ok ((specPred spec r).xor inv)
  | .opfilter spec neg base v =>
    if base ∉ allowedOps (specKind spec) then
      .error (.invalidOperator (specName spec) (opCs neg base))
    else
      let raw : Except FilterError Bool :=
        match specKind spec with
        | .boolK => .error (.invalidOperator (specName spec) (opCs neg base))
        | .numberK =>
          match parseNumSI v with
          | none => .error (.invalidValue (specName spec) v)
          | some q => .ok (cmpQ base (numAttr r (specKey spec)) q)
        | .percentK =>
          match parsePct v with
          | none => .error (.invalidValue (specName spec) v)
          | some q => .ok (cmpQ base (numAttr r (specKey spec)) q)
        | .spanK =>
          match parseSpan v with
          | none => .error (.invalidValue (specName spec) v)
          | some q =>
            match getAttr r (specKey spec) with
            | some (.span x known) => .ok (known && cmpQ base x q)
            | _ => .ok false
        | .statusK =>
          match parseStatus v with
          | none => .error (.invalidValue (specName spec) v)
          | some st => .ok (hasStatus r st)
        | _ =>
          match getAttr r (specKey spec) with
          | some (.str s) => .ok (cmpStr base s.data v)
          | _ => .ok false
      raw.map fun b => b.xor neg

/-- Evaluate one AND-group: every member must match; evaluation
short-circuits, so a failure in an earlier atomic propagates first. -/
def matchGroup (g : List AtomicFilter) (r : Record) : Except FilterError Bool :=
  match g with
  | [] => .ok true
  | a :: as_ => do
    let b ← matchAtomic a r
    if b then matchGroup as_ r else .ok false

/-- Evaluate an expression: at least one AND-group must fully match; the
identity expression matches every record. -/
def matchTF (e : TorrentFilter) (r : Record) : Except FilterError Bool :=
  match e with
  | [] => .ok true
  | _ => go e
where
  go : TorrentFilter → Except FilterError Bool
    | [] => .ok false
    | g :: gs => do
      let b ← matchGroup g r
      if b then .ok true else go gs

/-- Apply an expression to a record sequence: the matching records in input
order; an InvalidOperator or InvalidValue raised while matching propagates
to the caller.

Modelled from the spec: apply yields each record for which at least one
AND-group has all of its atomic filters matching, preserving the relative
order of matching records. -/
def applyTF (e : TorrentFilter) : List Record → Except FilterError (List Record)
  | [] => .ok []
  | r :: rs => do
    let b ← matchTF e r
    let rest ← applyTF e rs
    .ok (if b then r :: rest else rest)

/-- Parse-then-apply, projected to the name attribute, as the tests do. -/
def applyNames (s : String) (rs : List Record) : Except FilterError (List String) :=
  match parseTF s with
  | .error e => .error e
  | .ok f => (applyTF f rs).map (List.map fun r =>
      match getAttr r "name" with
      | some (.str nm) => nm
      | _ => "")

/-- Apply one atomic filter (the SingleTorrentFilter.apply of the tests). -/
def applySingle (a : AtomicFilter) : List Record → Except FilterError (List Record)
  | [] => .ok []
  | r :: rs => do
    let b ← matchAtomic a r
    let rest ← applySingle a rs
    .ok (if b then r :: rest else rest)

/-- Parse one token and apply it, projected to names. -/
def applySingleNames (s : String) (rs : List Record) : Except FilterError (List String) :=
  match parseAtomic s.data with
  | .error e => .error e
  | .ok a => (applySingle a rs).map (List.map fun r =>
      match getAttr r "name" with
      | some (.str nm) => nm
      | _ => "")

/-- Value of an atomic filter as compared by structural equality: path
values are compared with trailing slashes stripped (the tests equate
path=/some/path/to/torrents/ with path=/some/path/to/torrents). -/
def eqValue (spec : SpecId) (v : Cs) : Cs :=
  if specKind spec = .pathK then (v.reverse.dropWhile (· = '/')).reverse else v

/-- Structural equality of atomic filters. -/
def atomEq (a b : AtomicFilter) : Bool :=
  match a, b with
  | .nofilter s1 i1, .nofilter s2 i2 => s1 = s2 && i1 = i2
  | .opfilter s1 n1 b1 v1, .opfilter s2 n2 b2 v2 =>
    s1 = s2 && n1 = n2 && b1 = b2 && eqValue s1 v1 = eqValue s2 v2
  | _, _ => false

/-- Set inclusion of one AND-group in another. -/
def groupSub (g1 g2 : List AtomicFilter) : Bool :=
  g1.all fun a => g2.any fun b => atomEq a b

/-- Set equality of AND-groups. -/
def groupEq (g1 g2 : List AtomicFilter) : Bool :=
  groupSub g1 g2 && groupSub g2 g1

/-- Set inclusion of the AND-groups of one expression in another's. -/
def exprSub (e1 e2 : TorrentFilter) : Bool :=
  e1.all fun g => e2.any fun g2 => groupEq g g2

/-- Structural equality of expressions: set-based over AND-groups and over
the atomics within a group, independent of input text and token order. -/
def exprEq (e1 e2 : TorrentFilter) : Bool :=
  exprSub e1 e2 && exprSub e2 e1

/-- Equality of the parses of two query strings (false when either fails). -/
def tfEqStr (s1 s2 : String) : Bool :=
  match parseTF s1, parseTF s2 with
  | .ok a, .ok b => exprEq a b
  | _, _ => false

/-- Combination of two expressions.

Modelled from the spec: merge the AND-groups of both operands and remove
duplicate groups; if either operand is exactly the identity expression the
result is the identity expression; no other simplification is performed. -/
def combine (e1 e2 : TorrentFilter) : TorrentFilter :=
  if e1 = [] || e2 = [] then []
  else e1 ++ e2.filter fun g => !e1.any fun g1 => groupEq g1 g

/-- Needed attribute keys of an expression: the union, over every atomic
filter in every group, of its spec's needed keys (kept as a list; the
claims compare it as a set). -/
def neededKeys (e : TorrentFilter) : List String :=
  e.flatMap fun g => g.flatMap fun a => specNeeded a.spec

/-- Boolean set equality of key lists. -/
def setEqL (l1 l2 : List String) : Bool :=
  (l1.all fun x => l2.any fun y => x = y) && (l2.all fun x => l1.any fun y => x = y)

/-- One AND-group as a multiset of atomic filters. -/
def toMS (g : List AtomicFilter) : Multiset AtomicFilter :=
  (g : Multiset AtomicFilter)

/-- The AND-groups of an expression as a multiset of multisets: the fully
order-free view that structural equality is measured against. -/
def toMultisets (e : TorrentFilter) : Multiset (Multiset AtomicFilter) :=
  ((e.map toMS : List (Multiset AtomicFilter)) : Multiset (Multiset AtomicFilter))

/-- First character of a list, with a space default. -/
def headD : Cs → Char
  | [] => ' '
  | c :: _ => c

/-- Last character of a list, with a space default. -/
def lastD : Cs → Char
  | [] => ' '
  | c :: r => lastChar c r

/-- A parse-produced atomic filter: percentage values carry their suffix. -/
def WfAtom : AtomicFilter → Prop
  | .nofilter _ _ => True
  | .opfilter spec _ _ v => specKind spec = .percentK → lastChar ' ' v = '%'

/-- The escaped canonical token of one atomic filter. -/
def rTok (a : AtomicFilter) : Cs := escCs (renderAtomic a)

/-- Expected split parts of one rendered AND-group. -/
def gParts : List AtomicFilter → List Part
  | [] => []
  | [a] => [.tok (rTok a)]
  | a :: g => .tok (rTok a) :: .op '&' :: gParts g

/-- Expected split parts of a rendered expression. -/
def eParts : TorrentFilter → List Part
  | [] => []
  | [g] => gParts g
  | g :: gs => gParts g ++ .op '|' :: eParts gs

/-- Records with rate-down 0, 500000 and 1000000, as in the numeric
boundary tests. -/
def c5Records : List Record :=
  [[("name", .str "foo"), ("rate-down", .num 0)],
   [("name", .str "bar"), ("rate-down", .num 500000)],
   [("name", .str "baz"), ("rate-down", .num 1000000)]]

/-- One fully-downloaded record, as in the invalid-operator test. -/
def c7aRecords : List Record := [[("name", .str "foo"), ("%downloaded", .num 100)]]

/-- One downloading record, as in the invalid-value test. -/
def c7bRecords : List Record := [[("name", .str "foo"), ("rate-down", .num 100000)]]

/-- Records whose names contain operator characters, as in the escaping
tests. -/
def c8Records : List Record :=
  [[("name", .str "foo&bar")], [("name", .str "foo||bar")],
   [("name", .str "foo && bar")], [("name", .str "foo | bar")]]

section Lemmas

/-! Auxiliary facts about characters, trimming, escaping and quoting. -/

theorem lastChar_append (c : Char) (l : Cs) (d : Char) :
    lastChar c (l ++ [d]) = d := by
  induction l generalizing c with
  | nil => rfl
  | cons x r ih => simpa [lastChar] using ih x

theorem lastChar_cons (c x : Char) (r : Cs) :
    lastChar c (x :: r) = lastChar x r := rfl

theorem lastChar_eq_getLast (c : Char) (l : Cs) :
    lastChar c l = (c :: l).getLast (by simp) := by
  induction l generalizing c with
  | nil => rfl
  | cons x r ih => simpa [lastChar, List.getLast] using ih x

theorem dropWs_of_head (l : Cs) (h : l = [] ∨ ∃ c r, l = c :: r ∧ isWs c = false) :
    dropWs l = l := by
  rcases h with rfl | ⟨c, r, rfl, hc⟩
  · rfl
  · simp [dropWs, hc]

theorem esc_ne_nil (v : Cs) (h : v ≠ []) : escCs v ≠ [] := by
  cases v with
  | nil => exact absurd rfl h
  | cons c r => by_cases hc : isSep c = true <;> simp [escCs, hc]

theorem esc_head_not_sep (c : Char) (r : Cs) :
    ∃ d t, escCs (c :: r) = d :: t ∧ isSep d = false := by
  by_cases hc : isSep c = true
  · exact ⟨'\\', c :: escCs r, by simp [escCs, hc], by decide⟩
  · exact ⟨c, escCs r, by simp [escCs, hc], by simpa using hc⟩

theorem escCs_nil_iff (v : Cs) : escCs v = [] ↔ v = [] := by
  cases v with
  | nil => simp [escCs]
  | cons c r =>
    constructor
    · intro h
      by_cases hc : isSep c = true <;> simp [escCs, hc] at h
    · intro h
      exact absurd h (by simp)

theorem unesc_esc (v : Cs) : unescCs (escCs v) = v := by
  induction v with
  | nil => rfl
  | cons c r ih =>
    by_cases hc : isSep c = true
    · have h1 : escCs (c :: r) = '\\' :: c :: escCs r := by simp [escCs, hc]
      rw [h1]
      have h2 : unescCs ('\\' :: c :: escCs r) = c :: unescCs (escCs r) := by
        simp [unescCs, hc]
      rw [h2, ih]
    · have h1 : escCs (c :: r) = c :: escCs r := by simp [escCs, hc]
      rw [h1]
      cases hr : escCs r with
      | nil =>
        have : r = [] := (escCs_nil_iff r).mp hr
        subst this
        rfl
      | cons d t =>
        have hd : isSep d = false := by
          cases r with
          | nil => simp [escCs] at hr
          | cons x s =>
            obtain ⟨d2, t2, he, hds⟩ := esc_head_not_sep x s
            rw [he] at hr
            cases hr
            exact hds
        have : unescCs (c :: d :: t) = c :: unescCs (d :: t) := by
          simp [unescCs, hd]
        rw [this, ← hr, ih]

theorem esc_last (c : Char) (r : Cs) :
    ∃ d t, escCs (c :: r) = d :: t ∧ lastChar d t = lastChar c r := by
  induction r generalizing c with
  | nil =>
    by_cases hc : isSep c = true
    · exact ⟨'\\', [c], by simp [escCs, hc], by simp [lastChar]⟩
    · exact ⟨c, [], by simp [escCs, hc], rfl⟩
  | cons x s ih =>
    obtain ⟨d, t, he, hl⟩ := ih x
    by_cases hc : isSep c = true
    · refine ⟨'\\', c :: escCs (x :: s), by simp [escCs, hc], ?_⟩
      rw [he, lastChar_cons, lastChar_cons, hl, lastChar_cons]
    · refine ⟨c, escCs (x :: s), by simp [escCs, hc], ?_⟩
      rw [he, lastChar_cons, hl, lastChar_cons]

theorem needsQuote_false (v : Cs) (h : needsQuote v = false) :
    ∃ c r, v = c :: r ∧ isWs c = false ∧ c ≠ '=' ∧
      isWs (lastChar c r) = false ∧ lastChar c r ≠ '\\' ∧
      ¬(c = '\'' ∧ lastChar c r = '\'' ∧ r ≠ []) := by
  cases v with
  | nil => simp [needsQuote] at h
  | cons c r =>
    simp only [needsQuote, Bool.or_eq_false_iff, Bool.and_eq_false_iff,
      decide_eq_false_iff_not] at h
    obtain ⟨⟨hw, he⟩, ⟨hlw, hlb⟩, hqq⟩ := h
    refine ⟨c, r, rfl, hw, he, hlw, hlb, ?_⟩
    rintro ⟨rfl, hl, hr⟩
    rcases hqq with (h1 | h2) | h3
    · exact h1 rfl
    · exact h2 hl
    · exact h3 hr

theorem unquote_quote (v : Cs) : unquote (quoteIfNeeded v) = v := by
  by_cases hq : needsQuote v = true
  · cases v with
    | nil => simp [quoteIfNeeded, hq, unquote, lastChar]
    | cons c r =>
      have hrw : quoteIfNeeded (c :: r) = '\'' :: c :: (r ++ ['\'']) := by
        simp [quoteIfNeeded, hq]
      rw [hrw]
      show (if '\'' = '\'' && lastChar c (r ++ ['\'']) = '\''
            then (c :: (r ++ ['\''])).dropLast else _) = c :: r
      rw [lastChar_append]
      simp only [decide_True, Bool.true_and, decide_eq_true_eq, if_pos rfl]
      rw [show c :: (r ++ ['\'']) = (c :: r) ++ ['\''] from rfl]
      exact List.dropLast_concat ..
  · have h := needsQuote_false v (by simpa using hq)
    obtain ⟨c, r, rfl, -, -, -, -, hqq⟩ := h
    have hv : quoteIfNeeded (c :: r) = c :: r := by
      simp [quoteIfNeeded, by simpa using hq]
    rw [hv]
    cases r with
    | nil => rfl
    | cons c2 t =>
      show (if c = '\'' && lastChar c2 t = '\'' then (c2 :: t).dropLast
            else c :: c2 :: t) = c :: c2 :: t
      rw [if_neg]
      simp only [Bool.and_eq_true, decide_eq_true_eq, not_and]
      intro hc hl
      exact hqq ⟨hc, by simpa [lastChar_cons] using hl, by simp⟩

theorem quote_ne_nil (v : Cs) : quoteIfNeeded v ≠ [] := by
  by_cases hq : needsQuote v = true
  · simp [quoteIfNeeded, hq]
  · have := needsQuote_false v (by simpa using hq)
    obtain ⟨c, r, rfl, -⟩ := this
    simp [quoteIfNeeded, hq]

theorem headD_append (l m : Cs) (h : l ≠ []) : headD (l ++ m) = headD l := by
  cases l with
  | nil => exact absurd rfl h
  | cons c r => rfl

theorem lastChar_append_ne (c : Char) (l m : Cs) (h : m ≠ []) :
    lastChar c (l ++ m) = lastD m := by
  induction l generalizing c with
  | nil =>
    cases m with
    | nil => exact absurd rfl h
    | cons d t => rfl
  | cons x s ih => exact ih x

theorem lastD_append (l m : Cs) (h : m ≠ []) : lastD (l ++ m) = lastD m := by
  cases l with
  | nil => rfl
  | cons c r => exact lastChar_append_ne c r m h

theorem lastChar_eq_lastD (c : Char) (r : Cs) : lastChar c r = lastD (c :: r) := rfl

theorem headD_reverse (l : Cs) : headD l.reverse = lastD l := by
  induction l with
  | nil => rfl
  | cons c r ih =>
    cases r with
    | nil => rfl
    | cons x s =>
      rw [List.reverse_cons, headD_append _ _ (by simp)]
      exact ih

theorem trim_eq_self (l : Cs) (hh : isWs (headD l) = false)
    (hl : isWs (lastD l) = false) : trimCs l = l := by
  cases l with
  | nil => rfl
  | cons c r =>
    show dropWs ((dropWs (c :: r).reverse).reverse) = c :: r
    have h1 : dropWs (c :: r).reverse = (c :: r).reverse := by
      apply dropWs_of_head
      cases hrev : (c :: r).reverse with
      | nil => exact Or.inl rfl
      | cons d t =>
        right
        refine ⟨d, t, rfl, ?_⟩
        have h2 := headD_reverse (c :: r)
        rw [hrev] at h2
        show isWs d = false
        rw [show d = headD (d :: t) from rfl, h2]
        exact hl
    rw [h1, List.reverse_reverse]
    exact dropWs_of_head _ (Or.inr ⟨c, r, rfl, hh⟩)

theorem findOp_prepend (pre z : Cs)
    (h : ∀ c ∈ pre, isOpChar c = false ∧ c ≠ '!') :
    findOp (pre ++ z) = (findOp z).map fun p => (pre ++ p.1, p.2) := by
  induction pre with
  | nil =>
    cases hz : findOp z with
    | none => simp [hz]
    | some p => simp [hz]
  | cons c r ih =>
    have hc := h c (by simp)
    have hr : ∀ d ∈ r, isOpChar d = false ∧ d ≠ '!' := fun d hd => h d (by simp [hd])
    have hstep : findOp (c :: (r ++ z))
        = (findOp (r ++ z)).map fun p => (c :: p.1, p.2) := by
      rw [findOp.eq_def]
      simp [hc.1, hc.2]
    show findOp (c :: (r ++ z)) = _
    rw [hstep, ih hr]
    cases findOp z <;> simp

theorem findOp_at_op (neg : Bool) (base : BaseOp) (qv : Cs)
    (hq : headD qv ≠ '=') :
    findOp (opCs neg base ++ qv) = some ([], neg, base, qv) := by
  have hhead : qv.head? ≠ some '=' := by
    intro hcontra
    cases qv with
    | nil => simp at hcontra
    | cons c t => exact hq (by simpa [headD] using hcontra)
  cases neg <;> cases base <;>
    · rw [findOp.eq_def]
      simp [opCs, baseOpCs, findOp.mkOp, isOpChar, hhead]

theorem lastChar_mem (c : Char) (r : Cs) : lastChar c r ∈ c :: r := by
  induction r generalizing c with
  | nil => simp [lastChar]
  | cons x s ih =>
    rw [lastChar_cons]
    have h := ih x
    simp only [List.mem_cons] at h ⊢
    tauto

/-- Every registered name is nonempty, free of whitespace, bangs, operator
and escape characters, and looks itself up. -/
theorem specName_facts (s : SpecId) :
    ((specName s).data.all fun c =>
      !isOpChar c && !(c = '!') && !isWs c && !(c = '\\')) = true ∧
    (specName s).data ≠ [] ∧ lookupSpec (specName s).data = some s := by
  cases s <;> exact ⟨by decide, by decide, by decide⟩

theorem specName_chars (s : SpecId) :
    ∀ c ∈ (specName s).data, isOpChar c = false ∧ c ≠ '!' := by
  intro c hc
  have h := (specName_facts s).1
  rw [List.all_eq_true] at h
  have := h c hc
  simp only [Bool.and_eq_true, Bool.not_eq_true'] at this
  exact ⟨this.1.1.1, by simpa using this.1.1.2⟩

theorem specName_no_ws (s : SpecId) :
    ∀ c ∈ (specName s).data, isWs c = false ∧ c ≠ '\\' := by
  intro c hc
  have h := (specName_facts s).1
  rw [List.all_eq_true] at h
  have := h c hc
  simp only [Bool.and_eq_true, Bool.not_eq_true'] at this
  exact ⟨this.1.2, by simpa using this.2⟩

theorem opCs_ne_nil (neg : Bool) (b : BaseOp) : opCs neg b ≠ [] := by
  cases neg <;> cases b <;> decide

theorem opCs_head_ok (neg : Bool) (b : BaseOp) :
    isWs (headD (opCs neg b)) = false := by
  cases neg <;> cases b <;> decide

theorem opCs_has_op (neg : Bool) (b : BaseOp) :
    ∃ c ∈ opCs neg b, isOpChar c = true := by
  cases neg <;> cases b <;> decide

/-- The quoted-or-bare canonical value never starts with an equals sign,
never ends in whitespace or a backslash, and never starts with whitespace. -/
theorem quote_shape (v : Cs) :
    headD (quoteIfNeeded v) ≠ '=' ∧ isWs (headD (quoteIfNeeded v)) = false ∧
      isWs (lastD (quoteIfNeeded v)) = false ∧ lastD (quoteIfNeeded v) ≠ '\\' := by
  by_cases hq : needsQuote v = true
  · have h1 : quoteIfNeeded v = '\'' :: (v ++ ['\'']) := by simp [quoteIfNeeded, hq]
    rw [h1]
    have h2 : lastD ('\'' :: (v ++ ['\''])) = '\'' := by
      rw [show lastD ('\'' :: (v ++ ['\''])) = lastChar '\'' (v ++ ['\'']) from rfl,
        lastChar_append]
    have h3 : headD ('\'' :: (v ++ ['\''])) = '\'' := rfl
    rw [h2, h3]
    refine ⟨by decide, by decide, by decide, by decide⟩
  · obtain ⟨c, r, hv, hw, he, hlw, hlb, -⟩ := needsQuote_false v (by simpa using hq)
    have h1 : quoteIfNeeded v = v := by simp [quoteIfNeeded, by simpa using hq]
    rw [h1, hv]
    exact ⟨by simpa [headD] using he, by simpa [headD] using hw,
      by simpa [lastD] using hlw, by simpa [lastD] using hlb⟩

/-- The canonical text of a no-operator filter re-parses to it. -/
theorem parse_render_nofilter (spec : SpecId) (inv : Bool) :
    parseAtomic (renderAtomic (.nofilter spec inv)) = .ok (.nofilter spec inv) := by
  cases spec <;> cases inv <;> decide

/-- The canonical text of an operator filter re-parses to it verbatim. -/
theorem parse_render_opfilter (spec : SpecId) (neg : Bool) (base : BaseOp) (v : Cs)
    (hpct : specKind spec = .percentK → lastChar ' ' v = '%') :
    parseAtomic (renderAtomic (.opfilter spec neg base v))
      = .ok (.opfilter spec neg base v) := by
  have hrender : renderAtomic (.opfilter spec neg base v)
      = (if spec = SpecId.nameF then ([] : Cs) else (specName spec).data)
        ++ opCs neg base ++ quoteIfNeeded v := rfl
  set nm : Cs := if spec = SpecId.nameF then ([] : Cs) else (specName spec).data
    with hnmdef
  set qv : Cs := quoteIfNeeded v with hqvdef
  obtain ⟨hqveq, hqvwsh, hqvwsl, hqvbs⟩ := quote_shape v
  rw [← hqvdef] at hqveq hqvwsh hqvwsl hqvbs
  have hqvne : qv ≠ [] := hqvdef ▸ quote_ne_nil v
  have hnmchars : ∀ c ∈ nm, isOpChar c = false ∧ c ≠ '!' := by
    by_cases hs : spec = SpecId.nameF
    · simp [hnmdef, hs]
    · rw [hnmdef, if_neg hs]
      exact specName_chars spec
  have hnmws : ∀ c ∈ nm, isWs c = false ∧ c ≠ '\\' := by
    by_cases hs : spec = SpecId.nameF
    · simp [hnmdef, hs]
    · rw [hnmdef, if_neg hs]
      exact specName_no_ws spec
  set w : Cs := nm ++ opCs neg base ++ qv with hwdef
  have hwlast : lastD w = lastD qv := by
    rw [hwdef, List.append_assoc]
    rw [lastD_append nm (opCs neg base ++ qv) (by simp [hqvne])]
    exact lastD_append (opCs neg base) qv hqvne
  have hwhead : isWs (headD w) = false := by
    rw [hwdef]
    cases hnm : nm with
    | nil =>
      rw [List.append_assoc, List.nil_append,
        headD_append _ _ (opCs_ne_nil neg base)]
      exact opCs_head_ok neg base
    | cons c r =>
      rw [List.append_assoc, headD_append _ _ (by simp)]
      exact (hnmws c (by rw [hnm]; simp)).1
  have htrim : trimCs w = w := by
    refine trim_eq_self w hwhead ?_
    rw [hwlast]
    exact hqvwsl
  have hop : ∃ c ∈ w, isOpChar c = true := by
    obtain ⟨c, hc1, hc2⟩ := opCs_has_op neg base
    exact ⟨c, by rw [hwdef]; simp [hc1], hc2⟩
  have hwall : w ≠ "all".data ∧ w ≠ "*".data ∧ w ≠ [] := by
    obtain ⟨c, hc1, hc2⟩ := hop
    refine ⟨?_, ?_, ?_⟩
    · intro h
      rw [h] at hc1
      have : ∀ d ∈ ("all".data : Cs), isOpChar d = false := by decide
      rw [this c hc1] at hc2
      cases hc2
    · intro h
      rw [h] at hc1
      have : ∀ d ∈ ("*".data : Cs), isOpChar d = false := by decide
      rw [this c hc1] at hc2
      cases hc2
    · intro h
      rw [h] at hc1
      cases hc1
  have hfind : findOp w = some (nm, neg, base, qv) := by
    rw [hwdef, List.append_assoc, findOp_prepend nm _ hnmchars,
      findOp_at_op neg base qv hqveq]
    simp
  have htrimnm : trimCs nm = nm := by
    cases hnm : nm with
    | nil => rfl
    | cons c r =>
      refine trim_eq_self _ ?_ ?_
      · exact (hnmws c (by rw [hnm]; simp)).1
      · have hmem := lastChar_mem c r
        rw [← hnm] at hmem
        exact (hnmws _ (by rw [show lastD (c :: r) = lastChar c r from rfl]
                           exact hnm ▸ hmem)).1
  have hinv : extractInvert nm = (false, nm) := by
    cases hnm : nm with
    | nil => rfl
    | cons c r =>
      have hc := (hnmchars c (by rw [hnm]; simp)).2
      simp [extractInvert, hc]
  have hbang : (nm ≠ ([] : Cs) && lastChar ' ' nm = '!') = false := by
    cases hnm : nm with
    | nil => simp
    | cons c r =>
      have hmem := lastChar_mem c r
      have := (hnmchars (lastChar c r) (by rw [hnm]; exact hmem)).2
      simp [lastChar, this]
  have hlook : (if nm = ([] : Cs) then some SpecId.nameF else lookupSpec nm)
      = some spec := by
    by_cases hs : spec = SpecId.nameF
    · simp [hnmdef, hs]
    · rw [hnmdef, if_neg hs]
      rw [if_neg (by exact (specName_facts spec).2.1)]
      exact (specName_facts spec).2.2
  have hv2 : (if specKind spec = .percentK && lastChar ' ' (unquote qv) ≠ '%'
              then unquote qv ++ ['%'] else unquote qv) = v := by
    rw [hqvdef, unquote_quote]
    by_cases hk : specKind spec = ValueKind.percentK
    · rw [hpct hk]
      simp
    · simp [hk]
  rw [hrender]
  show parseAtomic w = _
  unfold parseAtomic
  rw [htrim]
  have hc1 : (w = [] || w = "all".data || w = "*".data) = false := by
    simp [hwall.1, hwall.2.1, hwall.2.2]
  simp only [hc1, Bool.false_eq_true, if_false, hfind]
  have hc2 : (qv = ([] : Cs) : Bool) = false := by simp [hqvne]
  simp only [hc2, Bool.false_eq_true, if_false, htrimnm, hinv, hbang, hlook]
  rw [hv2]
  have hneg : (false != neg) = neg := by cases neg <;> rfl
  rw [hneg]
  rw [if_neg hqvne]

/-- Parsing only ever produces well-formed atomic filters. -/
theorem parseAtomic_wf (raw : Cs) (a : AtomicFilter)
    (h : parseAtomic raw = .ok a) : WfAtom a := by
  unfold parseAtomic at h
  dsimp only at h
  split at h
  · cases h
    trivial
  · split at h
    · split at h
      · cases h
        trivial
      · split at h
        · cases h
          trivial
        · cases h
          intro hk
          simp [specKind] at hk
    · split at h
      · cases h
      · split at h
        · cases h
        · split at h
          · cases h
          · rename_i spec0 heq
            cases h
            intro hk
            set vv := unquote _ with hvv
            by_cases hcond :
                (specKind spec0 = ValueKind.percentK
                  && lastChar ' ' vv ≠ '%') = true
            · rw [if_pos hcond]
              cases vv with
              | nil => rfl
              | cons c r =>
                rw [show c :: r ++ ['%'] = c :: (r ++ ['%']) from rfl,
                  lastChar_cons]
                exact lastChar_append c r '%'
            · rw [if_neg hcond]
              simp only [Bool.and_eq_true, decide_eq_true_eq, not_and,
                Bool.not_eq_true] at hcond
              have := hcond hk
              simpa using this

/-- The canonical text of an atomic filter is never empty. -/
theorem render_ne_nil (a : AtomicFilter) : renderAtomic a ≠ [] := by
  cases a with
  | nofilter spec inv => cases spec <;> cases inv <;> decide
  | opfilter spec neg base v =>
    show (_ ++ opCs neg base ++ quoteIfNeeded v) ≠ []
    simp [List.append_eq_nil, quote_ne_nil v]

/-- The canonical text of an atomic filter never ends in a backslash. -/
theorem render_last_not_bs (a : AtomicFilter) : lastD (renderAtomic a) ≠ '\\' := by
  cases a with
  | nofilter spec inv => cases spec <;> cases inv <;> decide
  | opfilter spec neg base v =>
    show lastD (_ ++ opCs neg base ++ quoteIfNeeded v) ≠ '\\'
    rw [List.append_assoc,
      lastD_append _ _ (by simp [List.append_eq_nil, quote_ne_nil v]),
      lastD_append _ _ (quote_ne_nil v)]
    exact (quote_shape v).2.2.2

theorem partsGo_cons (acc : Cs) (c : Char) (r : Cs) :
    partsGo acc (c :: r) =
      if isSep c then .tok acc.reverse :: .op c :: partsGo [] r
      else if c = '\\' then
        match r with
        | [] => [.tok ('\\' :: acc).reverse]
        | c2 :: r2 =>
          if isSep c2 then partsGo (c2 :: '\\' :: acc) r2
          else partsGo ('\\' :: acc) (c2 :: r2)
      else partsGo (c :: acc) r := by
  rw [partsGo.eq_def]
  rfl

theorem partsGo_sep_step (acc : Cs) (c : Char) (r : Cs) (hc : isSep c = true) :
    partsGo acc (c :: r) = .tok acc.reverse :: .op c :: partsGo [] r := by
  rw [partsGo_cons, if_pos hc]

theorem partsGo_esc_step (acc : Cs) (c : Char) (r : Cs) (hc : isSep c = true) :
    partsGo acc ('\\' :: c :: r) = partsGo (c :: '\\' :: acc) r := by
  rw [partsGo_cons, if_neg (by decide), if_pos rfl]
  show (if isSep c = true then partsGo (c :: '\\' :: acc) r
        else partsGo ('\\' :: acc) (c :: r)) = _
  rw [if_pos hc]

theorem partsGo_bs_step (acc : Cs) (c : Char) (r : Cs) (hc : isSep c = false) :
    partsGo acc ('\\' :: c :: r) = partsGo ('\\' :: acc) (c :: r) := by
  rw [partsGo_cons, if_neg (by decide), if_pos rfl]
  show (if isSep c = true then partsGo (c :: '\\' :: acc) r
        else partsGo ('\\' :: acc) (c :: r)) = _
  rw [if_neg (by simp [hc])]

theorem partsGo_bs_nil (acc : Cs) :
    partsGo acc ['\\'] = [.tok ('\\' :: acc).reverse] := by
  rw [partsGo_cons, if_neg (by decide), if_pos rfl]

theorem partsGo_plain_step (acc : Cs) (c : Char) (r : Cs)
    (hc : isSep c = false) (hb : c ≠ '\\') :
    partsGo acc (c :: r) = partsGo (c :: acc) r := by
  rw [partsGo_cons, if_neg (by simp [hc]), if_neg hb]

/-- A fully escaped token is swallowed whole by the splitter. -/
theorem partsGo_esc (u : Cs) (acc : Cs) :
    partsGo acc (escCs u) = [.tok (acc.reverse ++ escCs u)] := by
  induction u generalizing acc with
  | nil => simp [partsGo, escCs]
  | cons c r ih =>
    by_cases hc : isSep c = true
    · rw [show escCs (c :: r) = '\\' :: c :: escCs r by simp [escCs, hc]]
      rw [partsGo_esc_step _ _ _ hc, ih]
      simp
    · rw [show escCs (c :: r) = c :: escCs r by simp [escCs, hc]]
      by_cases hb : c = '\\'
      · subst hb
        cases hr : escCs r with
        | nil =>
          have hre : r = [] := (escCs_nil_iff r).mp hr
          subst hre
          rw [partsGo_bs_nil]
          simp
        | cons d t =>
          have hd : isSep d = false := by
            cases r with
            | nil => simp [escCs] at hr
            | cons x s =>
              obtain ⟨d2, t2, he, hds⟩ := esc_head_not_sep x s
              rw [he] at hr
              cases hr
              exact hds
          rw [partsGo_bs_step _ _ _ hd, ← hr, ih]
          simp [hr]
      · rw [partsGo_plain_step _ _ _ (by simpa using hc) hb, ih]
        simp

/-- An escaped token followed by an operator splits exactly at the
operator, provided the token does not end in a backslash. -/
theorem partsGo_esc_sep (u : Cs) (acc : Cs) (s : Char) (rest : Cs)
    (hs : isSep s = true) (hbs : u = [] ∨ lastD u ≠ '\\') :
    partsGo acc (escCs u ++ s :: rest)
      = .tok (acc.reverse ++ escCs u) :: .op s :: partsGo [] rest := by
  induction u generalizing acc with
  | nil =>
    rw [show escCs ([] : Cs) = [] from rfl, List.nil_append,
      partsGo_sep_step _ _ _ hs]
    simp
  | cons c r ih =>
    have hbs' : r = [] ∨ lastD r ≠ '\\' := by
      rcases hbs with h | h
      · cases h
      · cases r with
        | nil => exact Or.inl rfl
        | cons x t => exact Or.inr (by simpa [lastD, lastChar_cons] using h)
    by_cases hc : isSep c = true
    · rw [show escCs (c :: r) = '\\' :: c :: escCs r by simp [escCs, hc]]
      rw [List.cons_append, List.cons_append, partsGo_esc_step _ _ _ hc,
        ih _ hbs']
      simp
    · rw [show escCs (c :: r) = c :: escCs r by simp [escCs, hc]]
      rw [List.cons_append]
      by_cases hb : c = '\\'
      · subst hb
        rcases hbs with h | h
        · simp at h
        · cases r with
          | nil => exact absurd rfl h
          | cons x t =>
            obtain ⟨d, t2, he, hd⟩ := esc_head_not_sep x t
            rw [show escCs (x :: t) ++ s :: rest = d :: (t2 ++ s :: rest) by
              rw [he]; simp]
            rw [partsGo_bs_step _ _ _ hd]
            rw [show d :: (t2 ++ s :: rest) = escCs (x :: t) ++ s :: rest by
              rw [he]; simp]
            rw [ih _ hbs']
            simp
      · rw [partsGo_plain_step _ _ _ (by simpa using hc) hb, ih _ hbs']
        simp

/-- Escaping is the identity on operator-free text. -/
theorem escCs_id (t : Cs) (h : ∀ c ∈ t, isSep c = false) : escCs t = t := by
  induction t with
  | nil => rfl
  | cons c r ih =>
    rw [show escCs (c :: r) = c :: escCs r by simp [escCs, h c (by simp)]]
    rw [ih fun d hd => h d (by simp [hd])]

/-- Any well-formed atomic re-parses from its canonical text. -/
theorem parse_render (a : AtomicFilter) (h : WfAtom a) :
    parseAtomic (renderAtomic a) = .ok a := by
  cases a with
  | nofilter spec inv => exact parse_render_nofilter spec inv
  | opfilter spec neg base v => exact parse_render_opfilter spec neg base v h

theorem rTok_ne_nil (a : AtomicFilter) : rTok a ≠ [] :=
  esc_ne_nil _ (render_ne_nil a)

theorem renderGroup_cons2 (a b : AtomicFilter) (g : List AtomicFilter) :
    renderGroup (a :: b :: g) = rTok a ++ '&' :: renderGroup (b :: g) := by
  simp [renderGroup, joinSep, rTok]

theorem renderGroup_single (a : AtomicFilter) : renderGroup [a] = rTok a := by
  simp [renderGroup, joinSep, rTok]

theorem renderGroup_ne_nil (g : List AtomicFilter) (h : g ≠ []) :
    renderGroup g ≠ [] := by
  cases g with
  | nil => exact absurd rfl h
  | cons a g2 =>
    cases g2 with
    | nil => rw [renderGroup_single]; exact rTok_ne_nil a
    | cons b g3 =>
      rw [renderGroup_cons2]
      simp [List.append_eq_nil, rTok_ne_nil a]

theorem renderChains_cons2 (g g2 : List AtomicFilter) (gs : TorrentFilter) :
    renderChains (g :: g2 :: gs) = renderGroup g ++ '|' :: renderChains (g2 :: gs) := by
  simp [renderChains, joinSep]

theorem renderChains_single (g : List AtomicFilter) :
    renderChains [g] = renderGroup g := by
  simp [renderChains, joinSep]

/-- Splitting a rendered AND-group followed by an operator. -/
theorem partsGo_group (g : List AtomicFilter) (s : Char) (rest : Cs)
    (hs : isSep s = true) (hne : g ≠ []) :
    partsGo [] (renderGroup g ++ s :: rest)
      = gParts g ++ .op s :: partsGo [] rest := by
  induction g with
  | nil => exact absurd rfl hne
  | cons a g2 ih =>
    cases g2 with
    | nil =>
      rw [renderGroup_single]
      rw [show rTok a ++ s :: rest = escCs (renderAtomic a) ++ s :: rest from rfl]
      rw [partsGo_esc_sep _ _ _ _ hs (Or.inr (render_last_not_bs a))]
      simp [gParts, rTok]
    | cons b g3 =>
      rw [renderGroup_cons2, List.append_assoc, List.cons_append]
      rw [show rTok a ++ ('&' :: (renderGroup (b :: g3) ++ s :: rest))
          = escCs (renderAtomic a) ++ '&' :: (renderGroup (b :: g3) ++ s :: rest)
          from rfl]
      rw [partsGo_esc_sep _ _ _ _ (by decide) (Or.inr (render_last_not_bs a))]
      rw [ih (by simp)]
      simp [gParts, rTok]

/-- Splitting a rendered AND-group at the end of the input. -/
theorem partsGo_group_end (g : List AtomicFilter) (hne : g ≠ []) :
    partsGo [] (renderGroup g) = gParts g := by
  induction g with
  | nil => exact absurd rfl hne
  | cons a g2 ih =>
    cases g2 with
    | nil =>
      rw [renderGroup_single,
        show rTok a = escCs (renderAtomic a) from rfl, partsGo_esc]
      simp [gParts, rTok]
    | cons b g3 =>
      rw [renderGroup_cons2]
      rw [show rTok a ++ '&' :: renderGroup (b :: g3)
          = escCs (renderAtomic a) ++ '&' :: renderGroup (b :: g3) from rfl]
      rw [partsGo_esc_sep _ _ _ _ (by decide) (Or.inr (render_last_not_bs a))]
      rw [ih (by simp)]
      simp [gParts, rTok]

/-- Splitting a whole rendered expression. -/
theorem partsGo_chains (e : TorrentFilter) (hne : e ≠ [])
    (hg : ∀ g ∈ e, g ≠ []) :
    partsGo [] (renderChains e) = eParts e := by
  induction e with
  | nil => exact absurd rfl hne
  | cons g gs ih =>
    cases gs with
    | nil =>
      rw [renderChains_single, partsGo_group_end g (hg g (by simp))]
      simp [eParts]
    | cons g2 gs2 =>
      rw [renderChains_cons2,
        partsGo_group g '|' _ (by decide) (hg g (by simp))]
      rw [ih (by simp) (fun g0 h0 => hg g0 (by simp [h0]))]
      simp [eParts]

theorem gParts_head (g : List AtomicFilter) (h : g ≠ []) :
    ∃ a r2, gParts g = .tok (rTok a) :: r2 ∧ a ∈ g := by
  cases g with
  | nil => exact absurd rfl h
  | cons a g2 =>
    cases g2 with
    | nil => exact ⟨a, [], by simp [gParts], by simp⟩
    | cons b g3 =>
      exact ⟨a, .op '&' :: gParts (b :: g3), by simp [gParts], by simp⟩

theorem gParts_ne_nil (g : List AtomicFilter) (h : g ≠ []) : gParts g ≠ [] := by
  obtain ⟨a, r2, he, -⟩ := gParts_head g h
  simp [he]

theorem eParts_head (e : TorrentFilter) (hne : e ≠ []) (hg : ∀ g ∈ e, g ≠ []) :
    ∃ t r2, eParts e = .tok t :: r2 := by
  cases e with
  | nil => exact absurd rfl hne
  | cons g gs =>
    obtain ⟨a, r2, he, -⟩ := gParts_head g (hg g (by simp))
    cases gs with
    | nil => exact ⟨rTok a, r2, by simp [eParts, he]⟩
    | cons g2 gs2 =>
      exact ⟨rTok a, r2 ++ .op '|' :: eParts (g2 :: gs2),
        by simp [eParts, he]⟩

theorem getLast?_cons_ne (x : Part) (l : List Part) (h : l ≠ []) :
    (x :: l).getLast? = l.getLast? := by
  cases l with
  | nil => exact absurd rfl h
  | cons y m => rfl

theorem gParts_last (g : List AtomicFilter) (h : g ≠ []) :
    ∃ t, (gParts g).getLast? = some (.tok t) := by
  induction g with
  | nil => exact absurd rfl h
  | cons a g2 ih =>
    cases g2 with
    | nil => exact ⟨rTok a, by simp [gParts]⟩
    | cons b g3 =>
      obtain ⟨t, ht⟩ := ih (by simp)
      refine ⟨t, ?_⟩
      rw [show gParts (a :: b :: g3)
          = .tok (rTok a) :: .op '&' :: gParts (b :: g3) by simp [gParts]]
      rw [getLast?_cons_ne _ _ (by simp [gParts_ne_nil (b :: g3) (by simp)]),
        getLast?_cons_ne _ _ (gParts_ne_nil (b :: g3) (by simp))]
      exact ht

theorem eParts_ne_nil (e : TorrentFilter) (hne : e ≠ [])
    (hg : ∀ g ∈ e, g ≠ []) : eParts e ≠ [] := by
  obtain ⟨t, r2, he⟩ := eParts_head e hne hg
  simp [he]

theorem eParts_last (e : TorrentFilter) (hne : e ≠ []) (hg : ∀ g ∈ e, g ≠ []) :
    ∃ t, (eParts e).getLast? = some (.tok t) := by
  induction e with
  | nil => exact absurd rfl hne
  | cons g gs ih =>
    cases gs with
    | nil =>
      rw [show eParts [g] = gParts g by simp [eParts]]
      exact gParts_last g (hg g (by simp))
    | cons g2 gs2 =>
      obtain ⟨t, ht⟩ := ih (by simp) (fun g0 h0 => hg g0 (by simp [h0]))
      refine ⟨t, ?_⟩
      rw [show eParts (g :: g2 :: gs2)
          = gParts g ++ .op '|' :: eParts (g2 :: gs2) by simp [eParts]]
      rw [List.getLast?_append_of_ne_nil _ (by simp)]
      rw [getLast?_cons_ne _ _
        (eParts_ne_nil (g2 :: gs2) (by simp)
          (fun g0 h0 => hg g0 (by simp [h0])))]
      exact ht

theorem findConsec_gParts_sep (g : List AtomicFilter) (s : Char)
    (L : List Part) (hne : g ≠ [])
    (hL : L = [] ∨ ∃ u r2, L = .tok u :: r2) :
    findConsec (gParts g ++ .op s :: L) = findConsec L := by
  induction g with
  | nil => exact absurd rfl hne
  | cons a g2 ih =>
    cases g2 with
    | nil =>
      rw [show gParts [a] ++ .op s :: L = .tok (rTok a) :: .op s :: L by
        simp [gParts]]
      rcases hL with rfl | ⟨u, r2, rfl⟩
      · rfl
      · rfl
    | cons b g3 =>
      obtain ⟨a2, r2, hbg, -⟩ := gParts_head (b :: g3) (by simp)
      rw [show gParts (a :: b :: g3) ++ .op s :: L
          = .tok (rTok a) :: .op '&' :: (gParts (b :: g3) ++ .op s :: L) by
        simp [gParts]]
      rw [hbg]
      show findConsec (.tok (rTok a) :: .op '&'
        :: .tok (rTok a2) :: (r2 ++ .op s :: L)) = _
      rw [show findConsec (.tok (rTok a) :: .op '&'
            :: .tok (rTok a2) :: (r2 ++ .op s :: L))
          = findConsec (.tok (rTok a2) :: (r2 ++ .op s :: L)) from rfl]
      rw [show Part.tok (rTok a2) :: (r2 ++ .op s :: L)
          = gParts (b :: g3) ++ .op s :: L by rw [hbg]; simp]
      exact ih (by simp)

theorem findConsec_gParts (g : List AtomicFilter) (hne : g ≠ []) :
    findConsec (gParts g) = none := by
  induction g with
  | nil => exact absurd rfl hne
  | cons a g2 ih =>
    cases g2 with
    | nil => rfl
    | cons b g3 =>
      obtain ⟨a2, r2, hbg, -⟩ := gParts_head (b :: g3) (by simp)
      rw [show gParts (a :: b :: g3)
          = .tok (rTok a) :: .op '&' :: gParts (b :: g3) by simp [gParts]]
      rw [hbg]
      show findConsec (.tok (rTok a) :: .op '&' :: .tok (rTok a2) :: r2) = _
      rw [show findConsec (.tok (rTok a) :: .op '&' :: .tok (rTok a2) :: r2)
          = findConsec (.tok (rTok a2) :: r2) from rfl]
      rw [← hbg]
      exact ih (by simp)

theorem findConsec_eParts (e : TorrentFilter) (hne : e ≠ [])
    (hg : ∀ g ∈ e, g ≠ []) : findConsec (eParts e) = none := by
  induction e with
  | nil => exact absurd rfl hne
  | cons g gs ih =>
    cases gs with
    | nil =>
      rw [show eParts [g] = gParts g by simp [eParts]]
      exact findConsec_gParts g (hg g (by simp))
    | cons g2 gs2 =>
      rw [show eParts (g :: g2 :: gs2)
          = gParts g ++ .op '|' :: eParts (g2 :: gs2) by simp [eParts]]
      rw [findConsec_gParts_sep g '|' _ (hg g (by simp))
        (Or.inr (by
          obtain ⟨t, r2, he⟩ := eParts_head (g2 :: gs2) (by simp)
            (fun g0 h0 => hg g0 (by simp [h0]))
          exact ⟨t, r2, he⟩))]
      exact ih (by simp) (fun g0 h0 => hg g0 (by simp [h0]))

theorem groupsOf_ne_nil (ps : List Part) : groupsOf ps ≠ [] := by
  induction ps with
  | nil => simp [groupsOf]
  | cons p r ih =>
    cases p with
    | tok t =>
      show (match groupsOf r with
            | [] => [[t]]
            | g :: gs => (t :: g) :: gs) ≠ []
      cases groupsOf r <;> simp
    | op c =>
      show (if c = '|' then [] :: groupsOf r else groupsOf r) ≠ []
      by_cases hc : c = '|' <;> simp [hc, ih]

theorem groupsOf_gParts_sep (g : List AtomicFilter) (L : List Part)
    (hne : g ≠ []) :
    groupsOf (gParts g ++ .op '|' :: L)
      = (g.map fun a => rTok a) :: groupsOf L := by
  induction g with
  | nil => exact absurd rfl hne
  | cons a g2 ih =>
    cases g2 with
    | nil =>
      show groupsOf (.tok (rTok a) :: .op '|' :: L) = _
      show (match groupsOf (.op '|' :: L) with
            | [] => [[rTok a]]
            | g :: gs => (rTok a :: g) :: gs) = _
      rw [show groupsOf (.op '|' :: L) = [] :: groupsOf L by
        show (if '|' = '|' then [] :: groupsOf L else groupsOf L) = _
        simp]
      simp
    | cons b g3 =>
      rw [show gParts (a :: b :: g3) ++ .op '|' :: L
          = .tok (rTok a) :: .op '&' :: (gParts (b :: g3) ++ .op '|' :: L) by
        simp [gParts]]
      show (match groupsOf (.op '&' :: (gParts (b :: g3) ++ .op '|' :: L)) with
            | [] => [[rTok a]]
            | g :: gs => (rTok a :: g) :: gs) = _
      rw [show groupsOf (.op '&' :: (gParts (b :: g3) ++ .op '|' :: L))
          = groupsOf (gParts (b :: g3) ++ .op '|' :: L) by
        show (if '&' = '|' then _ else _) = _
        simp]
      rw [ih (by simp)]
      simp

theorem groupsOf_gParts (g : List AtomicFilter) (hne : g ≠ []) :
    groupsOf (gParts g) = [g.map fun a => rTok a] := by
  induction g with
  | nil => exact absurd rfl hne
  | cons a g2 ih =>
    cases g2 with
    | nil =>
      show (match groupsOf ([] : List Part) with
            | [] => [[rTok a]]
            | g :: gs => (rTok a :: g) :: gs) = _
      simp [groupsOf]
    | cons b g3 =>
      rw [show gParts (a :: b :: g3)
          = .tok (rTok a) :: .op '&' :: gParts (b :: g3) by simp [gParts]]
      show (match groupsOf (.op '&' :: gParts (b :: g3)) with
            | [] => [[rTok a]]
            | g :: gs => (rTok a :: g) :: gs) = _
      rw [show groupsOf (.op '&' :: gParts (b :: g3))
          = groupsOf (gParts (b :: g3)) by
        show (if '&' = '|' then _ else _) = _
        simp]
      rw [ih (by simp)]
      simp

theorem groupsOf_eParts (e : TorrentFilter) (hne : e ≠ [])
    (hg : ∀ g ∈ e, g ≠ []) :
    groupsOf (eParts e) = e.map fun g => g.map fun a => rTok a := by
  induction e with
  | nil => exact absurd rfl hne
  | cons g gs ih =>
    cases gs with
    | nil =>
      rw [show eParts [g] = gParts g by simp [eParts]]
      rw [groupsOf_gParts g (hg g (by simp))]
      simp
    | cons g2 gs2 =>
      rw [show eParts (g :: g2 :: gs2)
          = gParts g ++ .op '|' :: eParts (g2 :: gs2) by simp [eParts]]
      rw [groupsOf_gParts_sep g _ (hg g (by simp))]
      rw [ih (by simp) (fun g0 h0 => hg g0 (by simp [h0]))]
      simp

theorem mem_gParts (p : Part) (g : List AtomicFilter) (h : p ∈ gParts g) :
    (∃ a, p = .tok (rTok a)) ∨ p = .op '&' := by
  induction g with
  | nil => simp [gParts] at h
  | cons a g2 ih =>
    cases g2 with
    | nil =>
      rw [show gParts [a] = [.tok (rTok a)] by simp [gParts]] at h
      simp at h
      exact Or.inl ⟨a, h⟩
    | cons b g3 =>
      rw [show gParts (a :: b :: g3)
          = .tok (rTok a) :: .op '&' :: gParts (b :: g3) by simp [gParts]] at h
      rcases List.mem_cons.mp h with h2 | h2
      · exact Or.inl ⟨a, h2⟩
      · rcases List.mem_cons.mp h2 with h3 | h3
        · exact Or.inr h3
        · exact ih h3

theorem mem_eParts (p : Part) (e : TorrentFilter) (h : p ∈ eParts e) :
    (∃ a, p = .tok (rTok a)) ∨ p = .op '&' ∨ p = .op '|' := by
  induction e with
  | nil => simp [eParts] at h
  | cons g gs ih =>
    cases gs with
    | nil =>
      rw [show eParts [g] = gParts g by simp [eParts]] at h
      rcases mem_gParts p g h with h2 | h2
      · exact Or.inl h2
      · exact Or.inr (Or.inl h2)
    | cons g2 gs2 =>
      rw [show eParts (g :: g2 :: gs2)
          = gParts g ++ .op '|' :: eParts (g2 :: gs2) by simp [eParts]] at h
      rw [List.mem_append] at h
      rcases h with h | h
      · rcases mem_gParts p g h with h2 | h2
        · exact Or.inl h2
        · exact Or.inr (Or.inl h2)
      · rcases List.mem_cons.mp h with h2 | h2
        · exact Or.inr (Or.inr h2)
        · exact ih h2

theorem eParts_filter (e : TorrentFilter) :
    (eParts e).filter (· ≠ .tok []) = eParts e := by
  rw [List.filter_eq_self]
  intro p hp
  rcases mem_eParts p e hp with ⟨a, ha⟩ | h2 | h2
  · subst ha
    simpa using rTok_ne_nil a
  · subst h2
    simp
  · subst h2
    simp

theorem mapM_map_comp {α β γ : Type} (l : List α) (r : α → β)
    (f : β → Except FilterError γ) :
    (l.map r).mapM f = l.mapM fun a => f (r a) := by
  induction l with
  | nil => rfl
  | cons x t ih => rw [List.map_cons, List.mapM_cons, List.mapM_cons, ih]

theorem mapM_ok_of_forall {α β : Type} (l : List α) (f : α → Except FilterError β)
    (g : α → β) (h : ∀ x ∈ l, f x = .ok (g x)) : l.mapM f = .ok (l.map g) := by
  induction l with
  | nil => rfl
  | cons x r ih =>
    rw [List.mapM_cons, h x (by simp), ih fun y hy => h y (by simp [hy])]
    rfl

theorem mapM_ok_mem {α β : Type} (l : List α) (f : α → Except FilterError β)
    (out : List β) (h : l.mapM f = .ok out) :
    ∀ b ∈ out, ∃ x ∈ l, f x = .ok b := by
  induction l generalizing out with
  | nil =>
    intro b hb
    rw [show ([] : List α).mapM f = .ok [] from rfl] at h
    cases h
    simp at hb
  | cons x r ih =>
    intro b hb
    rw [List.mapM_cons] at h
    cases hx : f x with
    | error err => rw [hx] at h; simp [Bind.bind, Except.bind] at h
    | ok v =>
      rw [hx] at h
      cases hr : r.mapM f with
      | error err =>
        rw [hr] at h
        simp [Bind.bind, Except.bind] at h
      | ok vs =>
        rw [hr] at h
        simp only [Bind.bind, Except.bind, pure, Except.pure] at h
        cases h
        rcases List.mem_cons.mp hb with rfl | hb2
        · exact ⟨x, by simp, hx⟩
        · obtain ⟨y, hy1, hy2⟩ := ih vs hr b hb2
          exact ⟨y, by simp [hy1], hy2⟩

/-- Re-parsing the canonical text of a suitable expression recovers it. -/
theorem parseChains_render (e : TorrentFilter) (hne : e ≠ [])
    (hg : ∀ g ∈ e, g ≠ []) (hwf : ∀ g ∈ e, ∀ a ∈ g, WfAtom a) :
    parseChains (renderChains e) = .ok e := by
  have hrne : renderChains e ≠ [] := by
    cases e with
    | nil => exact absurd rfl hne
    | cons g gs =>
      cases gs with
      | nil =>
        rw [renderChains_single]
        exact renderGroup_ne_nil g (hg g (by simp))
      | cons g2 gs2 =>
        rw [renderChains_cons2]
        simp [List.append_eq_nil]
  have hps : partsOf (renderChains e) = eParts e := by
    rw [partsOf, partsGo_chains e hne hg, eParts_filter]
  obtain ⟨t0, r0, hhead⟩ := eParts_head e hne hg
  obtain ⟨tl, hlast⟩ := eParts_last e hne hg
  have hcons := findConsec_eParts e hne hg
  have hatoms : ∀ g ∈ e, (g.map fun a => rTok a).mapM
      (fun t => parseAtomic (unescCs t)) = .ok g := by
    intro g hgm
    have : ∀ a ∈ g, parseAtomic (unescCs (rTok a)) = .ok a := by
      intro a ham
      rw [show unescCs (rTok a) = renderAtomic a from unesc_esc _]
      exact parse_render a (hwf g hgm a ham)
    calc (g.map fun a => rTok a).mapM (fun t => parseAtomic (unescCs t))
        = g.mapM (fun a => parseAtomic (unescCs (rTok a))) := by
          rw [mapM_map_comp]
      _ = .ok (g.map id) := mapM_ok_of_forall g _ id (by simpa using this)
      _ = .ok g := by simp
  unfold parseChains
  rw [if_neg hrne]
  dsimp only
  rw [hps, hhead]
  rw [show ((Part.tok t0 :: r0).head?.map Part.isOp).getD false = false by
    simp [Part.isOp]]
  rw [← hhead, hlast]
  simp only [Option.map_some, Option.getD_some, Part.isOp,
    Bool.false_eq_true, if_false]
  rw [hcons]
  rw [groupsOf_eParts e hne hg]
  calc (e.map fun g => g.map fun a => rTok a).mapM
        (fun g => g.mapM fun t => parseAtomic (unescCs t))
      = e.mapM (fun g => (g.map fun a => rTok a).mapM
          (fun t => parseAtomic (unescCs t))) := by rw [mapM_map_comp]
    _ = .ok (e.map id) := mapM_ok_of_forall e _ id (by simpa using hatoms)
    _ = .ok e := by simp

/-- With the three operator checks passed, no AND-group is empty. -/
theorem groupsOf_no_nil : (ps : List Part) → ps ≠ [] →
    (∀ c, ps.head? ≠ some (.op c)) →
    (∀ c, ps.getLast? ≠ some (.op c)) →
    findConsec ps = none →
    [] ∉ groupsOf ps
  | [], hne, _, _, _ => absurd rfl hne
  | .op c :: _, _, hh, _, _ => absurd rfl (hh c)
  | [.tok t], _, _, _, _ => by
    intro hmem
    simp [groupsOf] at hmem
  | .tok t :: .tok u :: R, _, _, hl, hc => by
    intro hmem
    have hrec := groupsOf_no_nil (.tok u :: R) (by simp)
      (by intro c0 h0; simp at h0)
      (by intro c0 h0
          exact hl c0 (by rw [getLast?_cons_ne _ _ (by simp)]; exact h0))
      hc
    revert hmem
    cases hG : groupsOf (.tok u :: R) with
    | nil => exact absurd hG (groupsOf_ne_nil _)
    | cons g gs =>
      intro hmem
      have hstep : groupsOf (.tok t :: .tok u :: R) = (t :: g) :: gs := by
        show (match groupsOf (.tok u :: R) with
              | [] => [[t]]
              | g :: gs => (t :: g) :: gs) = _
        rw [hG]
      rw [hstep] at hmem
      rcases List.mem_cons.mp hmem with h | h
      · exact absurd h.symm (by simp)
      · exact hrec (by rw [hG]; exact List.mem_cons_of_mem _ h)
  | .tok t :: .op c :: R, _, _, hl, hc => by
    cases R with
    | nil => exact absurd rfl (hl c)
    | cons p R2 =>
      cases p with
      | op d =>
        rw [show findConsec (.tok t :: .op c :: .op d :: R2)
            = some (t ++ c :: d :: firstChunk R2) from rfl] at hc
        cases hc
      | tok u =>
        intro hmem
        have hrec := groupsOf_no_nil (.tok u :: R2) (by simp)
          (by intro c0 h0; simp at h0)
          (by intro c0 h0
              exact hl c0 (by
                rw [getLast?_cons_ne _ _ (by simp),
                  getLast?_cons_ne _ _ (by simp)]
                exact h0))
          hc
        revert hmem
        cases hG : groupsOf (.tok u :: R2) with
        | nil => exact absurd hG (groupsOf_ne_nil _)
        | cons g gs =>
          intro hmem
          by_cases hcp : c = '|'
          · subst hcp
            have hstep : groupsOf (.tok t :: .op '|' :: .tok u :: R2)
                = [t] :: g :: gs := by
              show (match groupsOf (.op '|' :: .tok u :: R2) with
                    | [] => [[t]]
                    | g :: gs => (t :: g) :: gs) = _
              rw [show groupsOf (.op '|' :: .tok u :: R2)
                  = [] :: groupsOf (.tok u :: R2) by
                show (if '|' = '|' then _ else _) = _
                simp]
              rw [hG]
            rw [hstep] at hmem
            rcases List.mem_cons.mp hmem with h | h
            · exact absurd h.symm (by simp)
            · exact hrec (by rw [hG]; exact h)
          · have hstep : groupsOf (.tok t :: .op c :: .tok u :: R2)
                = (t :: g) :: gs := by
              show (match groupsOf (.op c :: .tok u :: R2) with
                    | [] => [[t]]
                    | g :: gs => (t :: g) :: gs) = _
              rw [show groupsOf (.op c :: .tok u :: R2)
                  = groupsOf (.tok u :: R2) by
                show (if c = '|' then _ else _) = _
                simp [hcp]]
              rw [hG]
            rw [hstep] at hmem
            rcases List.mem_cons.mp hmem with h | h
            · exact absurd h.symm (by simp)
            · exact hrec (by rw [hG]; exact List.mem_cons_of_mem _ h)

/-- Splitting a nonempty input never yields an empty part list. -/
theorem partsGo_filter_ne : (cs : Cs) → (acc : Cs) →
    (partsGo acc cs).filter (· ≠ .tok []) = [] → acc = [] ∧ cs = []
  | [], acc, h => by
    rw [show partsGo acc [] = [.tok acc.reverse] from rfl] at h
    constructor
    · by_cases ha : acc.reverse = []
      · simpa using ha
      · simp [List.filter, ha] at h
    · rfl
  | c :: r, acc, h => by
    by_cases hc : isSep c = true
    · rw [partsGo_sep_step _ _ _ hc] at h
      have : Part.op c ∈ (Part.tok acc.reverse
          :: Part.op c :: partsGo [] r).filter (· ≠ .tok []) := by
        simp
      rw [h] at this
      cases this
    · by_cases hb : c = '\\'
      · subst hb
        cases r with
        | nil =>
          rw [partsGo_bs_nil] at h
          have : ('\\' :: acc).reverse ≠ [] := by simp
          simp [List.filter, this] at h
        | cons c2 r2 =>
          by_cases hc2 : isSep c2 = true
          · rw [partsGo_esc_step _ _ _ hc2] at h
            have := partsGo_filter_ne r2 (c2 :: '\\' :: acc) h
            simp at this
          · rw [partsGo_bs_step _ _ _ (by simpa using hc2)] at h
            have := partsGo_filter_ne (c2 :: r2) ('\\' :: acc) h
            simp at this
      · rw [partsGo_plain_step _ _ _ (by simpa using hc) hb] at h
        have := partsGo_filter_ne r (c :: acc) h
        simp at this

theorem partsOf_ne_nil (cs : Cs) (h : cs ≠ []) : partsOf cs ≠ [] := by
  intro hcon
  exact h (partsGo_filter_ne cs [] hcon).2

theorem mapM_ok_length {α β : Type} (l : List α) (f : α → Except FilterError β)
    (out : List β) (h : l.mapM f = .ok out) : out.length = l.length := by
  induction l generalizing out with
  | nil =>
    rw [show ([] : List α).mapM f = .ok [] from rfl] at h
    cases h
    rfl
  | cons x r ih =>
    rw [List.mapM_cons] at h
    cases hx : f x with
    | error err => rw [hx] at h; simp [Bind.bind, Except.bind] at h
    | ok v =>
      rw [hx] at h
      cases hr : r.mapM f with
      | error err => rw [hr] at h; simp [Bind.bind, Except.bind] at h
      | ok vs =>
        rw [hr] at h
        simp only [Bind.bind, Except.bind, pure, Except.pure] at h
        cases h
        simp [ih vs hr]

/-- Everything parseChains accepts has nonempty, well-formed groups. -/
theorem parseChains_inv (cs : Cs) (chains : TorrentFilter)
    (h : parseChains cs = .ok chains) :
    (∀ g ∈ chains, g ≠ []) ∧ (∀ g ∈ chains, ∀ a ∈ g, WfAtom a) := by
  unfold parseChains at h
  by_cases hcs : cs = []
  · rw [if_pos hcs] at h
    cases h
    exact ⟨by simp, by simp⟩
  · rw [if_neg hcs] at h
    dsimp only at h
    split at h
    · cases h
    · split at h
      · cases h
      · split at h
        · cases h
        · rename_i hhead hlast xopt hcons
          have hne := partsOf_ne_nil cs hcs
          have hnonil := groupsOf_no_nil (partsOf cs) hne
            (by intro c0 h0
                rw [h0] at hhead
                simp [Part.isOp] at hhead)
            (by intro c0 h0
                rw [h0] at hlast
                simp [Part.isOp] at hlast)
            hcons
          constructor
          · intro g hgm
            obtain ⟨gg, hgg1, hgg2⟩ := mapM_ok_mem _ _ _ h g hgm
            intro hgnil
            subst hgnil
            have := mapM_ok_length _ _ _ hgg2
            have hggnil : gg = [] := by
              cases gg with
              | nil => rfl
              | cons x t => simp at this
            exact hnonil (hggnil ▸ hgg1)
          · intro g hgm a ham
            obtain ⟨gg, hgg1, hgg2⟩ := mapM_ok_mem _ _ _ h g hgm
            obtain ⟨t, ht1, ht2⟩ := mapM_ok_mem _ _ _ hgg2 a ham
            exact parseAtomic_wf _ _ ht2

theorem atomEq_refl (a : AtomicFilter) : atomEq a a = true := by
  cases a <;> simp [atomEq]

theorem atomEq_spec (a b : AtomicFilter) (h : atomEq a b = true) :
    a.spec = b.spec := by
  cases a <;> cases b <;> simp [atomEq] at h ⊢ <;> tauto

theorem groupSub_refl (g : List AtomicFilter) : groupSub g g = true := by
  rw [groupSub, List.all_eq_true]
  intro a ha
  rw [List.any_eq_true]
  exact ⟨a, ha, atomEq_refl a⟩

theorem exprEq_refl (e : TorrentFilter) : exprEq e e = true := by
  have hsub : exprSub e e = true := by
    rw [exprSub, List.all_eq_true]
    intro g hg
    rw [List.any_eq_true]
    exact ⟨g, hg, by simp [groupEq, groupSub_refl]⟩
  simp [exprEq, hsub]

/-- The full round trip: any successful parse re-parses from its canonical
string to the identical expression. -/
theorem parseTF_roundtrip (s : String) (e : TorrentFilter)
    (h : parseTF s = .ok e) : parseTF (tfString e) = .ok e := by
  unfold parseTF at h
  cases hpc : parseChains s.data with
  | error err => rw [hpc] at h; cases h
  | ok chains =>
    rw [hpc] at h
    simp only [Except.map] at h
    cases h
    obtain ⟨hgne, hwf⟩ := parseChains_inv _ _ hpc
    by_cases hall : (chains.any fun g => g.any fun a => a = allAtom) = true
    · rw [show collapse chains = [] by simp [collapse, hall]]
      decide
    · have hcoll : collapse chains = chains := by
        simp [collapse, hall]
      rw [hcoll]
      cases hch : chains with
      | nil => decide
      | cons g gs =>
        rw [← hch]
        show (parseChains (tfString chains).data).map collapse = _
        rw [show (tfString chains).data = renderChains chains by
          simp [tfString]]
        rw [parseChains_render chains (by rw [hch]; simp) hgne hwf]
        simp only [Except.map]
        rw [hcoll]

theorem groupEq_of_perm (g1 g2 : List AtomicFilter) (h : g1.Perm g2) :
    groupEq g1 g2 = true := by
  have hs : ∀ (x y : List AtomicFilter), x.Perm y → groupSub x y = true := by
    intro x y hxy
    rw [groupSub, List.all_eq_true]
    intro a ha
    rw [List.any_eq_true]
    exact ⟨a, hxy.mem_iff.mp ha, atomEq_refl a⟩
  simp [groupEq, hs g1 g2 h, hs g2 g1 h.symm]

theorem toMultisets_mem (m : Multiset AtomicFilter) (e : TorrentFilter) :
    m ∈ toMultisets e ↔ ∃ g ∈ e, toMS g = m := by
  rw [toMultisets, Multiset.mem_coe, List.mem_map]

theorem toMS_perm (g1 g2 : List AtomicFilter) (h : toMS g1 = toMS g2) :
    g1.Perm g2 :=
  Multiset.coe_eq_coe.mp h

theorem exprSub_of_multisets (e1 e2 : TorrentFilter)
    (h : toMultisets e1 = toMultisets e2) : exprSub e1 e2 = true := by
  rw [exprSub, List.all_eq_true]
  intro g hg
  rw [List.any_eq_true]
  have hmem : toMS g ∈ toMultisets e2 := by
    rw [← h]
    exact (toMultisets_mem _ _).mpr ⟨g, hg, rfl⟩
  obtain ⟨g2, hg2, heq⟩ := (toMultisets_mem _ _).mp hmem
  exact ⟨g2, hg2, groupEq_of_perm g g2 (toMS_perm _ _ heq.symm)⟩

/-- Structural equality only sees the multiset of atomic-filter multisets. -/
theorem exprEq_of_multisets (e1 e2 : TorrentFilter)
    (h : toMultisets e1 = toMultisets e2) : exprEq e1 e2 = true := by
  simp [exprEq, exprSub_of_multisets e1 e2 h, exprSub_of_multisets e2 e1 h.symm]

theorem collapse_cond_of_multisets (e1 e2 : TorrentFilter)
    (h : toMultisets e1 = toMultisets e2) :
    (e1.any fun g => g.any fun a => a = allAtom)
      = (e2.any fun g => g.any fun a => a = allAtom) := by
  have key : ∀ f : TorrentFilter,
      (f.any fun g => g.any fun a => a = allAtom) = true
        ↔ ∃ m ∈ toMultisets f, allAtom ∈ m := by
    intro f
    rw [List.any_eq_true]
    constructor
    · rintro ⟨g, hg, hany⟩
      rw [List.any_eq_true] at hany
      obtain ⟨a, ha, haeq⟩ := hany
      refine ⟨toMS g, (toMultisets_mem _ _).mpr ⟨g, hg, rfl⟩, ?_⟩
      rw [toMS, Multiset.mem_coe]
      have : a = allAtom := by simpa using haeq
      exact this ▸ ha
    · rintro ⟨m, hm, ham⟩
      obtain ⟨g, hg, rfl⟩ := (toMultisets_mem _ _).mp hm
      refine ⟨g, hg, ?_⟩
      rw [List.any_eq_true]
      rw [toMS, Multiset.mem_coe] at ham
      exact ⟨allAtom, ham, by simp⟩
  by_cases h1 : (e1.any fun g => g.any fun a => a = allAtom) = true
  · rw [h1]
    have := (key e1).mp h1
    rw [h] at this
    exact ((key e2).mpr this).symm
  · have h1f : (e1.any fun g => g.any fun a => a = allAtom) = false := by
      simpa using h1
    rw [h1f]
    by_cases h2 : (e2.any fun g => g.any fun a => a = allAtom) = true
    · have := (key e2).mp h2
      rw [← h] at this
      exact absurd ((key e1).mpr this) h1
    · have h2f : (e2.any fun g => g.any fun a => a = allAtom) = false := by
        rw [Bool.eq_false_iff]
        exact h2
      exact h2f.symm

/-- Collapse respects the multiset view, so equality survives it. -/
theorem exprEq_collapse_of_multisets (e1 e2 : TorrentFilter)
    (h : toMultisets e1 = toMultisets e2) :
    exprEq (collapse e1) (collapse e2) = true := by
  by_cases h1 : (e1.any fun g => g.any fun a => a = allAtom) = true
  · have h2 := (collapse_cond_of_multisets e1 e2 h) ▸ h1
    rw [show collapse e1 = [] by simp [collapse, h1],
      show collapse e2 = [] by simp [collapse, h2]]
    exact exprEq_refl []
  · have h2 : ¬(e2.any fun g => g.any fun a => a = allAtom) = true := by
      rw [← collapse_cond_of_multisets e1 e2 h]
      exact h1
    rw [show collapse e1 = e1 by simp [collapse, h1],
      show collapse e2 = e2 by simp [collapse, h2]]
    exact exprEq_of_multisets e1 e2 h

/-- Unescaping is the identity on operator-free text. -/
theorem unescCs_id (t : Cs) (h : ∀ c ∈ t, isSep c = false) : unescCs t = t := by
  induction t with
  | nil => rfl
  | cons c r ih =>
    cases r with
    | nil => rfl
    | cons c2 r2 =>
      have h2 : isSep c2 = false := h c2 (by simp)
      rw [show unescCs (c :: c2 :: r2)
          = if c = '\\' && isSep c2 then c2 :: unescCs r2
            else c :: unescCs (c2 :: r2) by simp [unescCs]]
      rw [if_neg (by simp [h2])]
      rw [ih fun d hd => h d (by simp [hd])]

/-- Any input starting with an operator character fails as LeadingOperator. -/
theorem parseChains_leading (c : Char) (rest : Cs) (hc : isSep c = true) :
    parseChains (c :: rest) = .error (.leadingOperator (c :: rest)) := by
  unfold parseChains
  rw [if_neg (by simp)]
  dsimp only
  have hps : partsOf (c :: rest)
      = .op c :: (partsGo [] rest).filter (· ≠ .tok []) := by
    rw [partsOf, partsGo_sep_step _ _ _ hc]
    simp [List.filter]
  rw [hps]
  simp [Part.isOp]

/-- The first part of a split is a nonempty token while the accumulator is
nonempty. -/
theorem partsGo_head_tok : (cs : Cs) → (acc : Cs) → acc ≠ [] →
    ∃ t r2, partsGo acc cs = .tok t :: r2 ∧ t ≠ []
  | [], acc, hacc => ⟨acc.reverse, [], rfl, by simpa using hacc⟩
  | c :: r, acc, hacc => by
    by_cases hc : isSep c = true
    · exact ⟨acc.reverse, _, partsGo_sep_step _ _ _ hc, by simpa using hacc⟩
    · by_cases hb : c = '\\'
      · subst hb
        cases r with
        | nil => exact ⟨('\\' :: acc).reverse, [], partsGo_bs_nil acc, by simp⟩
        | cons c2 r2 =>
          by_cases hc2 : isSep c2 = true
          · rw [partsGo_esc_step _ _ _ hc2]
            exact partsGo_head_tok r2 _ (by simp)
          · rw [partsGo_bs_step _ _ _ (by simpa using hc2)]
            exact partsGo_head_tok (c2 :: r2) _ (by simp)
      · rw [partsGo_plain_step _ _ _ (by simpa using hc) hb]
        exact partsGo_head_tok r _ (by simp [hacc])

/-- An input not starting with an operator splits into a nonempty leading
token. -/
theorem partsOf_head_tok (c : Char) (cs : Cs) (hc : isSep c = false) :
    ∃ t r2, partsOf (c :: cs) = .tok t :: r2 ∧ t ≠ [] := by
  have step : ∃ t r2, partsGo [] (c :: cs) = .tok t :: r2 ∧ t ≠ [] := by
    by_cases hb : c = '\\'
    · subst hb
      cases cs with
      | nil => exact ⟨['\\'], [], partsGo_bs_nil [], by simp⟩
      | cons c2 r2 =>
        by_cases hc2 : isSep c2 = true
        · rw [partsGo_esc_step _ _ _ hc2]
          exact partsGo_head_tok r2 _ (by simp)
        · rw [partsGo_bs_step _ _ _ (by simpa using hc2)]
          exact partsGo_head_tok (c2 :: r2) _ (by simp)
    · rw [partsGo_plain_step _ _ _ hc hb]
      exact partsGo_head_tok cs _ (by simp)
  obtain ⟨t, r2, hsp, htne⟩ := step
  exact ⟨t, r2.filter (· ≠ .tok []), by rw [partsOf, hsp]; simp [List.filter, htne], htne⟩

/-- When the input ends in an unescaped operator, the last filtered part is
that operator. -/
theorem partsGo_last_op : (ys : Cs) → (acc : Cs) → (s : Char) →
    isSep s = true → (ys = [] ∨ lastD ys ≠ '\\') →
    ((partsGo acc (ys ++ [s])).filter (· ≠ .tok [])).getLast? = some (.op s)
  | [], acc, s, hs, _ => by
    rw [List.nil_append, partsGo_sep_step _ _ _ hs,
      show partsGo [] ([] : Cs) = [.tok []] from rfl]
    by_cases ha : acc.reverse = []
    · simp [List.filter, ha]
    · simp [List.filter, ha]
  | c :: r, acc, s, hs, hbs => by
    have hbs' : r = [] ∨ lastD r ≠ '\\' := by
      rcases hbs with h | h
      · cases h
      · cases r with
        | nil => exact Or.inl rfl
        | cons x t => exact Or.inr (by simpa [lastD, lastChar_cons] using h)
    by_cases hc : isSep c = true
    · rw [List.cons_append, partsGo_sep_step _ _ _ hc]
      have hrec := partsGo_last_op r [] s hs hbs'
      have hfne : (partsGo [] (r ++ [s])).filter (· ≠ .tok []) ≠ [] := by
        intro hcon
        have := (partsGo_filter_ne _ _ hcon).2
        simp at this
      cases hF : (partsGo [] (r ++ [s])).filter (· ≠ .tok []) with
      | nil => exact absurd hF hfne
      | cons p ps =>
        have hfilter : ((Part.tok acc.reverse :: .op c :: partsGo [] (r ++ [s])).filter
            (· ≠ .tok []))
            = (if acc.reverse ≠ [] then [Part.tok acc.reverse] else [])
              ++ .op c :: p :: ps := by
          by_cases hra : acc.reverse = [] <;>
            simp [List.filter, hra, ← hF]
        rw [hfilter]
        rw [List.getLast?_append_of_ne_nil _ (by simp)]
        rw [getLast?_cons_ne _ _ (by simp)]
        rw [← hF]
        exact hrec
    · by_cases hb : c = '\\'
      · subst hb
        cases r with
        | nil =>
          rcases hbs with h | h
          · cases h
          · exact absurd rfl h
        | cons c2 r2 =>
          by_cases hc2 : isSep c2 = true
          · rw [List.cons_append, List.cons_append, partsGo_esc_step _ _ _ hc2]
            have hbs2 : r2 = [] ∨ lastD r2 ≠ '\\' := by
              rcases hbs' with h | h
              · cases h
              · cases r2 with
                | nil => exact Or.inl rfl
                | cons x t => exact Or.inr (by simpa [lastD, lastChar_cons] using h)
            exact partsGo_last_op r2 _ s hs hbs2
          · rw [List.cons_append, List.cons_append,
              partsGo_bs_step _ _ _ (by simpa using hc2)]
            rw [show c2 :: (r2 ++ [s]) = (c2 :: r2) ++ [s] from rfl]
            exact partsGo_last_op (c2 :: r2) _ s hs hbs'
      · rw [List.cons_append, partsGo_plain_step _ _ _ (by simpa using hc) hb]
        exact partsGo_last_op r _ s hs hbs'

/-- Any input ending in an unescaped operator, not starting with one, fails
as TrailingOperator. -/
theorem parseChains_trailing (c : Char) (mid : Cs) (s : Char)
    (hs : isSep s = true) (hc : isSep c = false)
    (hbs : lastD (c :: mid) ≠ '\\') :
    parseChains (c :: mid ++ [s])
      = .error (.trailingOperator (c :: mid ++ [s])) := by
  unfold parseChains
  rw [if_neg (by simp)]
  dsimp only
  simp only [List.cons_append]
  obtain ⟨t, r2, hhead, htne⟩ := partsOf_head_tok c (mid ++ [s]) hc
  have hlast : (partsOf (c :: mid ++ [s])).getLast? = some (.op s) :=
    partsGo_last_op (c :: mid) [] s hs (Or.inr hbs)
  simp only [List.cons_append] at hlast
  rw [hhead] at hlast ⊢
  rw [show ((Part.tok t :: r2).head?.map Part.isOp).getD false = false by
    simp [Part.isOp]]
  simp only [Bool.false_eq_true, if_false]
  rw [hlast]
  simp [Part.isOp]

/-- Adjacent unescaped operators between two plain tokens fail as
ConsecutiveOperators citing the full offending substring. -/
theorem parseChains_consec (t1 : Cs) (a b : Char) (t2 : Cs)
    (ha : isSep a = true) (hb : isSep b = true)
    (h1ne : t1 ≠ []) (h2ne : t2 ≠ [])
    (h1 : ∀ c ∈ t1, isSep c = false) (h1bs : lastD t1 ≠ '\\')
    (h2 : ∀ c ∈ t2, isSep c = false) :
    parseChains (t1 ++ a :: b :: t2)
      = .error (.consecutiveOperators (t1 ++ a :: b :: t2)) := by
  unfold parseChains
  rw [if_neg (by simp [h1ne])]
  dsimp only
  have hps : partsOf (t1 ++ a :: b :: t2)
      = [.tok t1, .op a, .op b, .tok t2] := by
    rw [partsOf]
    rw [show t1 ++ a :: b :: t2 = escCs t1 ++ a :: (b :: t2) by
      rw [escCs_id t1 h1]]
    rw [partsGo_esc_sep t1 [] a (b :: t2) ha (Or.inr h1bs)]
    rw [partsGo_sep_step _ _ _ hb]
    rw [show t2 = escCs t2 by rw [escCs_id t2 h2]]
    rw [partsGo_esc t2 []]
    rw [escCs_id t1 h1, escCs_id t2 h2]
    simp [List.filter, h1ne, h2ne]
  rw [hps]
  rw [show (([Part.tok t1, .op a, .op b, .tok t2]).head?.map Part.isOp).getD false
      = false by simp [Part.isOp]]
  rw [show (([Part.tok t1, .op a, .op b, .tok t2]).getLast?.map Part.isOp).getD false
      = false by simp [Part.isOp]]
  simp only [Bool.false_eq_true, if_false]
  rw [show findConsec [Part.tok t1, .op a, .op b, .tok t2]
      = some (t1 ++ a :: b :: t2) from rfl]

/-- Parsing two plain tokens joined by one operator. -/
theorem parseChains_two (t1 t2 : Cs) (s : Char) (hs : isSep s = true)
    (h1 : ∀ c ∈ t1, isSep c = false) (h2 : ∀ c ∈ t2, isSep c = false)
    (h1ne : t1 ≠ []) (h2ne : t2 ≠ []) (h1bs : lastD t1 ≠ '\\')
    (A B : AtomicFilter)
    (hA : parseAtomic t1 = .ok A) (hB : parseAtomic t2 = .ok B) :
    parseChains (t1 ++ s :: t2)
      = .ok (if s = '|' then [[A], [B]] else [[A, B]]) := by
  unfold parseChains
  rw [if_neg (by simp [h1ne])]
  dsimp only
  have hps : partsOf (t1 ++ s :: t2) = [.tok t1, .op s, .tok t2] := by
    rw [partsOf]
    rw [show t1 ++ s :: t2 = escCs t1 ++ s :: t2 by rw [escCs_id t1 h1]]
    rw [partsGo_esc_sep t1 [] s t2 hs (Or.inr h1bs)]
    rw [show t2 = escCs t2 by rw [escCs_id t2 h2]]
    rw [partsGo_esc t2 []]
    rw [escCs_id t1 h1, escCs_id t2 h2]
    simp [List.filter, h1ne, h2ne]
  rw [hps]
  rw [show (([Part.tok t1, .op s, .tok t2]).head?.map Part.isOp).getD false
      = false by simp [Part.isOp]]
  rw [show (([Part.tok t1, .op s, .tok t2]).getLast?.map Part.isOp).getD false
      = false by simp [Part.isOp]]
  simp only [Bool.false_eq_true, if_false]
  rw [show findConsec [Part.tok t1, .op s, .tok t2] = none from rfl]
  have hu1 : unescCs t1 = t1 := unescCs_id t1 h1
  have hu2 : unescCs t2 = t2 := unescCs_id t2 h2
  by_cases hsp : s = '|'
  · subst hsp
    have hgrp : groupsOf [Part.tok t1, .op '|', .tok t2] = [[t1], [t2]] := by
      show (match groupsOf [Part.op '|', .tok t2] with
            | [] => [[t1]]
            | g :: gs => (t1 :: g) :: gs) = _
      rw [show groupsOf [Part.op '|', .tok t2] = [] :: groupsOf [Part.tok t2] by
        show (if '|' = '|' then _ else _) = _
        simp]
      rw [show groupsOf [Part.tok t2] = [[t2]] by
        show (match groupsOf ([] : List Part) with
              | [] => [[t2]]
              | g :: gs => (t2 :: g) :: gs) = _
        simp [groupsOf]]
    rw [hgrp]
    rw [List.mapM_cons, List.mapM_cons, List.mapM_cons, List.mapM_cons,
      hu1, hu2, hA, hB]
    rfl
  · have hgrp : groupsOf [Part.tok t1, .op s, .tok t2] = [[t1, t2]] := by
      show (match groupsOf [Part.op s, .tok t2] with
            | [] => [[t1]]
            | g :: gs => (t1 :: g) :: gs) = _
      rw [show groupsOf [Part.op s, .tok t2] = groupsOf [Part.tok t2] by
        show (if s = '|' then _ else _) = _
        simp [hsp]]
      rw [show groupsOf [Part.tok t2] = [[t2]] by
        show (match groupsOf ([] : List Part) with
              | [] => [[t2]]
              | g :: gs => (t2 :: g) :: gs) = _
        simp [groupsOf]]
    rw [hgrp]
    rw [List.mapM_cons, List.mapM_cons, List.mapM_cons,
      hu1, hu2, hA, hB]
    rw [if_neg hsp]
    rfl

theorem setEqL_true_iff (l1 l2 : List String) :
    setEqL l1 l2 = true ↔ (∀ x ∈ l1, x ∈ l2) ∧ ∀ x ∈ l2, x ∈ l1 := by
  rw [setEqL, Bool.and_eq_true, List.all_eq_true, List.all_eq_true]
  constructor
  · rintro ⟨ha, hb⟩
    constructor
    · intro x hx
      obtain ⟨y, hy, hxy⟩ := List.any_eq_true.mp (ha x hx)
      rw [show x = y by simpa using hxy]
      exact hy
    · intro x hx
      obtain ⟨y, hy, hxy⟩ := List.any_eq_true.mp (hb x hx)
      rw [show x = y by simpa using hxy]
      exact hy
  · rintro ⟨ha, hb⟩
    constructor
    · intro x hx
      exact List.any_eq_true.mpr ⟨x, ha x hx, by simp⟩
    · intro x hx
      exact List.any_eq_true.mpr ⟨x, hb x hx, by simp⟩

theorem neededKeys_mem (k : String) (e : TorrentFilter) :
    k ∈ neededKeys e ↔ ∃ g ∈ e, ∃ a ∈ g, k ∈ specNeeded a.spec := by
  simp [neededKeys, List.mem_flatMap]

/-- Needed keys add up under combination of non-identity operands. -/
theorem neededKeys_combine (e1 e2 : TorrentFilter)
    (h1 : e1 ≠ []) (h2 : e2 ≠ []) :
    setEqL (neededKeys (combine e1 e2)) (neededKeys e1 ++ neededKeys e2) = true := by
  have hco : combine e1 e2
      = e1 ++ e2.filter fun g => !e1.any fun g1 => groupEq g1 g := by
    simp [combine, h1, h2]
  rw [setEqL_true_iff]
  constructor
  · intro k hk
    rw [neededKeys_mem] at hk
    obtain ⟨g, hg, a, ha, hka⟩ := hk
    rw [hco, List.mem_append] at hg
    rw [List.mem_append]
    rcases hg with hg | hg
    · exact Or.inl ((neededKeys_mem k e1).mpr ⟨g, hg, a, ha, hka⟩)
    · exact Or.inr ((neededKeys_mem k e2).mpr
        ⟨g, List.mem_of_mem_filter hg, a, ha, hka⟩)
  · intro k hk
    rw [List.mem_append] at hk
    rw [neededKeys_mem]
    rcases hk with hk | hk
    · obtain ⟨g, hg, a, ha, hka⟩ := (neededKeys_mem k e1).mp hk
      exact ⟨g, by rw [hco]; exact List.mem_append_left _ hg, a, ha, hka⟩
    · obtain ⟨g, hg, a, ha, hka⟩ := (neededKeys_mem k e2).mp hk
      by_cases hkept : (e1.any fun g1 => groupEq g1 g) = true
      · obtain ⟨g1, hg1, hge⟩ := List.any_eq_true.mp hkept
        have hsub : groupSub g g1 = true := by
          rw [groupEq, Bool.and_eq_true] at hge
          exact hge.2
        rw [groupSub, List.all_eq_true] at hsub
        obtain ⟨b, hb, hab⟩ := List.any_eq_true.mp (hsub a ha)
        refine ⟨g1, by rw [hco]; exact List.mem_append_left _ hg1, b, hb, ?_⟩
        rw [← atomEq_spec a b hab]
        exact hka
      · refine ⟨g, ?_, a, ha, hka⟩
        rw [hco]
        refine List.mem_append_right _ (List.mem_filter.mpr ⟨hg, ?_⟩)
        simp only [Bool.not_eq_true'] at hkept
        simp [hkept]

/-- A token without an operator that matches no registered name falls back
to the implicit substring filter on the name spec. -/
theorem parseAtomic_fallback (raw : Cs)
    (hne : (trimCs raw = [] || trimCs raw = "all".data
      || trimCs raw = "*".data) = false)
    (hop : findOp (trimCs raw) = none)
    (hnm : (extractInvert (trimCs raw)).2 ≠ [])
    (hlk : lookupSpec (extractInvert (trimCs raw)).2 = none) :
    parseAtomic raw = .ok (.opfilter .nameF (extractInvert (trimCs raw)).1
      .contains (extractInvert (trimCs raw)).2) := by
  unfold parseAtomic
  dsimp only
  rw [hne]
  simp only [Bool.false_eq_true, if_false]
  rw [hop]
  rw [if_neg hnm, hlk]

end Lemmas

section Claims

/-- C1: for every valid query string s, re-parsing the canonical
serialization yields an equal expression — parse(to_string(parse(s)))
equals parse(s) under the structural equality of FilterExpression; the
re-parse in fact returns the identical expression, so structural equality
holds by reflexivity. -/
theorem c1_roundtrip_canonical (s : String) (e : TorrentFilter)
    (h : parseTF s = .ok e) :
    parseTF (tfString e) = .ok e ∧ exprEq e e = true :=
  ⟨parseTF_roundtrip s e h, exprEq_refl e⟩

/-- C1 witness: the round trip at the concrete query idle|name~foo&private. -/
theorem c1_roundtrip_canonical_witness :
    parseTF (tfString [[.nofilter .idleF false],
      [.opfilter .nameF false .contains "foo".data, .nofilter .privateF false]])
      = .ok [[.nofilter .idleF false],
        [.opfilter .nameF false .contains "foo".data,
         .nofilter .privateF false]] ∧
    exprEq [[.nofilter .idleF false],
      [.opfilter .nameF false .contains "foo".data, .nofilter .privateF false]]
      [[.nofilter .idleF false],
       [.opfilter .nameF false .contains "foo".data,
        .nofilter .privateF false]] = true :=
  c1_roundtrip_canonical "idle|name~foo&private" _ (by decide)

/-- C2: combination with the identity expression absorbs — whenever either
operand is the identity, the result is the identity; in particular
parse("active") + parse("all") equals parse("all"). -/
theorem c2_combine_identity (f1 f2 : TorrentFilter) (h : f1 = [] ∨ f2 = []) :
    combine f1 f2 = [] ∧
    parseTF "active" = .ok [[.nofilter .activeF false]] ∧
    parseTF "all" = .ok [] ∧
    combine [[.nofilter .activeF false]] [] = [] ∧
    exprEq (combine [[.nofilter .activeF false]] []) [] = true := by
  refine ⟨?_, by decide, by decide, by decide, by decide⟩
  rcases h with rfl | rfl
  · simp [combine]
  · simp [combine]

/-- C2 witness: absorption at parse("active") and parse("all"). -/
theorem c2_combine_identity_witness :
    combine [[.nofilter .activeF false]] [] = [] ∧
    parseTF "active" = .ok [[.nofilter .activeF false]] ∧
    parseTF "all" = .ok [] ∧
    combine [[.nofilter .activeF false]] [] = [] ∧
    exprEq (combine [[.nofilter .activeF false]] []) [] = true :=
  c2_combine_identity [[.nofilter .activeF false]] [] (Or.inr rfl)

/-- C3 counterexample: needed_keys is not additive when an operand is the
identity expression — parse("active") + parse("all") collapses to the
identity, whose needed keys are empty, while the union keeps the keys of
active. -/
theorem c3_needed_keys_counterexample :
    parseTF "active" = .ok [[.nofilter .activeF false]] ∧
    parseTF "all" = .ok [] ∧
    setEqL (neededKeys (combine [[.nofilter .activeF false]] []))
      (neededKeys [[.nofilter .activeF false]] ++ neededKeys []) = false := by
  decide

/-- C3 (amended): for expressions f1 and f2 neither of which is the
identity, needed_keys(f1 + f2) equals needed_keys(f1) together with
needed_keys(f2) as sets; needed_keys is the union over every atomic filter
in every group of its spec's needed keys; and concretely needed_keys of
public is private, and adding complete adds %downloaded. -/
theorem c3_needed_keys_amended (e1 e2 : TorrentFilter)
    (h1 : e1 ≠ []) (h2 : e2 ≠ []) :
    setEqL (neededKeys (combine e1 e2))
      (neededKeys e1 ++ neededKeys e2) = true ∧
    (∀ k, k ∈ neededKeys e1 ↔ ∃ g ∈ e1, ∃ a ∈ g, k ∈ specNeeded a.spec) ∧
    parseTF "public" = .ok [[.nofilter .publicF false]] ∧
    parseTF "complete" = .ok [[.nofilter .completeF false]] ∧
    setEqL (neededKeys [[.nofilter .publicF false]]) ["private"] = true ∧
    setEqL (neededKeys (combine [[.nofilter .publicF false]]
      [[.nofilter .completeF false]])) ["private", "%downloaded"] = true :=
  ⟨neededKeys_combine e1 e2 h1 h2, fun k => neededKeys_mem k e1,
    by decide, by decide, by decide, by decide⟩

/-- C3 witness: additivity at parse("public") and parse("complete"). -/
theorem c3_needed_keys_amended_witness :
    setEqL (neededKeys (combine [[.nofilter .publicF false]]
        [[.nofilter .completeF false]]))
      (neededKeys [[.nofilter .publicF false]]
        ++ neededKeys [[.nofilter .completeF false]]) = true ∧
    (∀ k, k ∈ neededKeys [[AtomicFilter.nofilter .publicF false]]
      ↔ ∃ g ∈ [[AtomicFilter.nofilter .publicF false]], ∃ a ∈ g,
          k ∈ specNeeded a.spec) ∧
    parseTF "public" = .ok [[.nofilter .publicF false]] ∧
    parseTF "complete" = .ok [[.nofilter .completeF false]] ∧
    setEqL (neededKeys [[.nofilter .publicF false]]) ["private"] = true ∧
    setEqL (neededKeys (combine [[.nofilter .publicF false]]
      [[.nofilter .completeF false]])) ["private", "%downloaded"] = true :=
  c3_needed_keys_amended [[.nofilter .publicF false]]
    [[.nofilter .completeF false]] (by decide) (by decide)

/-- C4: equality of expressions is structural and set-based over AND-groups
and over the atomic filters within a group, independent of input text,
whitespace and token order: expressions with the same multiset of atomic
multisets are equal; parsing two tokens around one operator commutes; and
the cited concrete equalities and inequalities hold. -/
theorem c4_equality_structural :
    (∀ e1 e2 : TorrentFilter, toMultisets e1 = toMultisets e2
      → exprEq e1 e2 = true) ∧
    (∀ (t1 t2 : Cs) (A B : AtomicFilter),
      (∀ c ∈ t1, isSep c = false) → (∀ c ∈ t2, isSep c = false) →
      t1 ≠ [] → t2 ≠ [] → lastD t1 ≠ '\\' → lastD t2 ≠ '\\' →
      parseAtomic t1 = .ok A → parseAtomic t2 = .ok B →
      parseTF (String.mk (t1 ++ '&' :: t2)) = .ok (collapse [[A, B]]) ∧
      parseTF (String.mk (t2 ++ '&' :: t1)) = .ok (collapse [[B, A]]) ∧
      exprEq (collapse [[A, B]]) (collapse [[B, A]]) = true ∧
      parseTF (String.mk (t1 ++ '|' :: t2)) = .ok (collapse [[A], [B]]) ∧
      parseTF (String.mk (t2 ++ '|' :: t1)) = .ok (collapse [[B], [A]]) ∧
      exprEq (collapse [[A], [B]]) (collapse [[B], [A]]) = true) ∧
    tfEqStr "idle&private" "private&idle" = true ∧
    tfEqStr "idle|private" "private|idle" = true ∧
    tfEqStr "idle|private" "idle&private" = false ∧
    tfEqStr "idle|private&stopped" "stopped&private|idle" = true ∧
    tfEqStr "idle|private&stopped" "private|idle&stopped" = false := by
  refine ⟨exprEq_of_multisets, ?_, by decide, by decide, by decide,
    by decide, by decide⟩
  intro t1 t2 A B h1 h2 h1ne h2ne h1bs h2bs hA hB
  have hand1 := parseChains_two t1 t2 '&' (by decide) h1 h2 h1ne h2ne h1bs A B hA hB
  have hand2 := parseChains_two t2 t1 '&' (by decide) h2 h1 h2ne h1ne h2bs B A hB hA
  have hor1 := parseChains_two t1 t2 '|' (by decide) h1 h2 h1ne h2ne h1bs A B hA hB
  have hor2 := parseChains_two t2 t1 '|' (by decide) h2 h1 h2ne h1ne h2bs B A hB hA
  rw [if_neg (by decide)] at hand1 hand2
  rw [if_pos rfl] at hor1 hor2
  have hmand : toMultisets [[A, B]] = toMultisets [[B, A]] := by
    show ((([toMS [A, B]] : List (Multiset AtomicFilter)))
        : Multiset (Multiset AtomicFilter)) = _
    have : toMS [A, B] = toMS [B, A] :=
      Multiset.coe_eq_coe.mpr (List.Perm.swap B A [])
    rw [this]
    rfl
  have hmor : toMultisets [[A], [B]] = toMultisets [[B], [A]] := by
    show ((([toMS [A], toMS [B]] : List (Multiset AtomicFilter)))
        : Multiset (Multiset AtomicFilter)) = _
    exact Multiset.coe_eq_coe.mpr (List.Perm.swap (toMS [B]) (toMS [A]) [])
  refine ⟨?_, ?_, exprEq_collapse_of_multisets _ _ hmand, ?_, ?_,
    exprEq_collapse_of_multisets _ _ hmor⟩
  · show (parseChains (t1 ++ '&' :: t2)).map collapse = _
    rw [hand1]
    rfl
  · show (parseChains (t2 ++ '&' :: t1)).map collapse = _
    rw [hand2]
    rfl
  · show (parseChains (t1 ++ '|' :: t2)).map collapse = _
    rw [hor1]
    rfl
  · show (parseChains (t2 ++ '|' :: t1)).map collapse = _
    rw [hor2]
    rfl

/-- C4 witness: the structural theorem at concrete expressions and the
token-commutation at idle and private. -/
theorem c4_equality_structural_witness :
    exprEq [[.nofilter .idleF false, .nofilter .privateF false]]
      [[.nofilter .privateF false, .nofilter .idleF false]] = true ∧
    parseTF (String.mk ("idle".data ++ '&' :: "private".data))
      = .ok (collapse [[.nofilter .idleF false, .nofilter .privateF false]]) :=
  ⟨c4_equality_structural.1 _ _ (by decide),
    (c4_equality_structural.2.1 "idle".data "private".data
      (.nofilter .idleF false) (.nofilter .privateF false)
      (by decide) (by decide) (by decide) (by decide) (by decide) (by decide)
      (by decide) (by decide)).1⟩

/-- C5: with SI-suffix values on the rate-down records 0, 500000, 1000000,
the strict comparison rate-down>500k matches exactly the 1000000 record and
the non-strict rate-down>=500k matches the 500000 and 1000000 records, in
input order. -/
theorem c5_numeric_boundary :
    applySingleNames "rate-down>500k" c5Records = .ok ["baz"] ∧
    applySingleNames "rate-down>=500k" c5Records = .ok ["bar", "baz"] ∧
    getAttr (c5Records.get ⟨2, by decide⟩) "rate-down" = some (.num 1000000) ∧
    getAttr (c5Records.get ⟨1, by decide⟩) "rate-down" = some (.num 500000) := by
  decide

/-- C6 counterexample: the claim as stated says an input ending with an
operator character fails with TrailingOperator, but the input idle\&
ends with the operator character & and parses successfully (the backslash
escapes it into a literal value character), so the claim needs the
operators to be unescaped. -/
theorem c6_operator_errors_counterexample :
    lastD "idle\\&".data = '&' ∧ isSep '&' = true ∧
    parseTF "idle\\&"
      = .ok [[.opfilter .nameF false .contains "idle&".data]] := by
  decide

/-- C6 (amended): with the offending operator characters unescaped, the
three rejection shapes hold generally — a leading separator fails with
LeadingOperator citing the input, a trailing unescaped separator after a
separator-free body fails with TrailingOperator citing the input, and two
adjacent separators between separator-free tokens fail with
ConsecutiveOperators citing the input — and the cited substring of an
embedded adjacency is the adjacent-operator region, as the concrete
embedded inputs show. -/
theorem c6_operator_errors_amended :
    (∀ c rest, isSep c = true →
      parseTF (String.mk (c :: rest))
        = .error (.leadingOperator (c :: rest))) ∧
    (∀ c mid s, isSep s = true → isSep c = false → lastD (c :: mid) ≠ '\\' →
      parseTF (String.mk (c :: mid ++ [s]))
        = .error (.trailingOperator (c :: mid ++ [s]))) ∧
    (∀ t1 a b t2, isSep a = true → isSep b = true → t1 ≠ [] → t2 ≠ [] →
      (∀ c ∈ t1, isSep c = false) → lastD t1 ≠ '\\' →
      (∀ c ∈ t2, isSep c = false) →
      parseTF (String.mk (t1 ++ a :: b :: t2))
        = .error (.consecutiveOperators (t1 ++ a :: b :: t2))) ∧
    parseTF "&" = .error (.leadingOperator "&".data) ∧
    parseTF "idle&" = .error (.trailingOperator "idle&".data) ∧
    parseTF "idle||private"
      = .error (.consecutiveOperators "idle||private".data) ∧
    parseTF "idle||private&name~foo|name~bar"
      = .error (.consecutiveOperators "idle||private".data) ∧
    parseTF "name~foo|name~bar&idle|&private|name~baz"
      = .error (.consecutiveOperators "idle|&private".data) := by
  refine ⟨?_, ?_, ?_, by decide, by decide, by decide, by decide, by decide⟩
  · intro c rest hc
    show (parseChains (c :: rest)).map collapse = _
    rw [parseChains_leading c rest hc]
    rfl
  · intro c mid s hs hc hbs
    show (parseChains (c :: mid ++ [s])).map collapse = _
    rw [parseChains_trailing c mid s hs hc hbs]
    rfl
  · intro t1 a b t2 ha hb h1ne h2ne h1 h1bs h2
    show (parseChains (t1 ++ a :: b :: t2)).map collapse = _
    rw [parseChains_consec t1 a b t2 ha hb h1ne h2ne h1 h1bs h2]
    rfl

/-- C6 witness: the three general clauses instantiated at &idle, idle& and
idle||private. -/
theorem c6_operator_errors_amended_witness :
    parseTF (String.mk ('&' :: "idle".data))
      = .error (.leadingOperator ('&' :: "idle".data)) ∧
    parseTF (String.mk ('i' :: "dle".data ++ ['&']))
      = .error (.trailingOperator ('i' :: "dle".data ++ ['&'])) ∧
    parseTF (String.mk ("idle".data ++ '|' :: '|' :: "private".data))
      = .error (.consecutiveOperators
          ("idle".data ++ '|' :: '|' :: "private".data)) :=
  ⟨c6_operator_errors_amended.1 '&' "idle".data (by decide),
    c6_operator_errors_amended.2.1 'i' "dle".data '&'
      (by decide) (by decide) (by decide),
    c6_operator_errors_amended.2.2.1 "idle".data '|' '|' "private".data
      (by decide) (by decide) (by decide) (by decide) (by decide) (by decide)
      (by decide)⟩

/-- C7 counterexample: the claim quantifies over every record sequence, but
on the empty sequence both an invalid operator and an invalid value go
unreported — apply returns the empty result instead of the error, because
the checks run per record. -/
theorem c7_eval_errors_counterexample :
    applySingleNames "%downloaded~17" [] = .ok [] ∧
    applySingleNames "rate-down>foo" [] = .ok [] := by
  decide

/-- C7 (amended): over every nonempty record sequence, a substring operator
on the percentage spec fails with InvalidOperator carrying the spec name
and operator, and an unparsable numeric value fails with InvalidValue
carrying the spec name and raw value. -/
theorem c7_eval_errors_amended : ∀ rs : List Record, rs ≠ [] →
    applySingleNames "%downloaded~17" rs
      = .error (.invalidOperator "%downloaded" ['~']) ∧
    applySingleNames "rate-down>foo" rs
      = .error (.invalidValue "rate-down" "foo".data) := by
  intro rs h
  cases rs with
  | nil => exact absurd rfl h
  | cons r rs2 => exact ⟨rfl, rfl⟩

/-- C7 witness: the amended theorem at the one-record sequences of the
tests. -/
theorem c7_eval_errors_amended_witness :
    applySingleNames "%downloaded~17" c7aRecords
      = .error (.invalidOperator "%downloaded" ['~']) ∧
    applySingleNames "rate-down>foo" c7bRecords
      = .error (.invalidValue "rate-down" "foo".data) :=
  ⟨(c7_eval_errors_amended c7aRecords (by decide)).1,
    (c7_eval_errors_amended c7bRecords (by decide)).2⟩

/-- C8: a backslash immediately before & or | escapes it into a literal
value character: on the four records of the escaping tests, ~\& matches
exactly foo&bar and foo && bar, and ~\&\& matches only foo && bar, in
input order. -/
theorem c8_escaped_separator_matching :
    applyNames "~\\&" c8Records = .ok ["foo&bar", "foo && bar"] ∧
    applyNames "~\\&\\&" c8Records = .ok ["foo && bar"] ∧
    (c8Records.map fun r => match getAttr r "name" with
      | some (.str s) => s
      | _ => "")
      = ["foo&bar", "foo||bar", "foo && bar", "foo | bar"] := by
  decide

/-- C9 counterexample: the claim extends the name~ fallback to unknown
tokens containing an operator, but foo=bar fails with UnknownFilterName
citing foo instead of parsing as the substring filter. -/
theorem c9_name_fallback_counterexample :
    parseTF "foo=bar" = .error (.unknownFilterName "foo".data) := by
  decide

/-- C9 (amended): the implicit name~<text> fallback applies exactly to the
operator-free unknown tokens: any trimmed token that is not an identity
form, contains no operator, has a nonempty name after the optional leading
inversion and matches no spec name or alias parses as the substring filter
against the name spec; the bare term foo does, and parses equal to ~foo. -/
theorem c9_name_fallback_amended :
    (∀ raw : Cs,
      (trimCs raw = [] || trimCs raw = "all".data
        || trimCs raw = "*".data) = false →
      findOp (trimCs raw) = none →
      (extractInvert (trimCs raw)).2 ≠ [] →
      lookupSpec (extractInvert (trimCs raw)).2 = none →
      parseAtomic raw = .ok (.opfilter .nameF (extractInvert (trimCs raw)).1
        .contains (extractInvert (trimCs raw)).2)) ∧
    parseAtomic "foo".data
      = .ok (.opfilter .nameF false .contains "foo".data) ∧
    parseTF "foo" = .ok [[.opfilter .nameF false .contains "foo".data]] ∧
    tfEqStr "foo" "~foo" = true :=
  ⟨parseAtomic_fallback, by decide, by decide, by decide⟩

/-- C9 witness: the fallback clause at the bare token foo. -/
theorem c9_name_fallback_amended_witness :
    parseAtomic "foo".data
      = .ok (.opfilter .nameF (extractInvert (trimCs "foo".data)).1
          .contains (extractInvert (trimCs "foo".data)).2) :=
  c9_name_fallback_amended.1 "foo".data
    (by decide) (by decide) (by decide) (by decide)

/-- C10: whenever any AND-group of the parsed chains contains the match-all
atomic filter, the whole expression collapses to the identity expression at
parse time: parse yields the identity, which serializes to all and equals
parse of all; concretely for name~f|all&public. -/
theorem c10_identity_collapse :
    (∀ (s : String) (chains : TorrentFilter),
      parseChains s.data = .ok chains →
      (∃ g ∈ chains, allAtom ∈ g) →
      parseTF s = .ok []) ∧
    parseChains "name~f|all&public".data
      = .ok [[.opfilter .nameF false .contains ['f']],
          [.nofilter .allF false, .nofilter .publicF false]] ∧
    parseTF "name~f|all&public" = .ok [] ∧
    parseTF "all" = .ok [] ∧
    tfString [] = "all" := by
  refine ⟨?_, by decide, by decide, by decide, by decide⟩
  intro s chains hp hex
  show (parseChains s.data).map collapse = _
  rw [hp]
  have hany : (chains.any fun g => g.any (· = allAtom)) = true := by
    rw [List.any_eq_true]
    obtain ⟨g, hg, hmem⟩ := hex
    exact ⟨g, hg, List.any_eq_true.mpr ⟨allAtom, hmem, by decide⟩⟩
  show Except.ok (collapse chains) = Except.ok ([] : TorrentFilter)
  rw [show collapse chains = [] from by simp [collapse, hany]]

/-- C10 witness: the collapse clause at name~f|all&public with its concrete
pre-collapse chains. -/
theorem c10_identity_collapse_witness :
    parseTF "name~f|all&public" = .ok [] :=
  c10_identity_collapse.1 "name~f|all&public"
    [[.opfilter .nameF false .contains ['f']],
      [.nofilter .allF false, .nofilter .publicF false]]
    (by decide)
    ⟨[.nofilter .allF false, .nofilter .publicF false],
      by decide, by decide⟩

end Claims

end Stig
